import Mathlib

/-!
Verification of the `DataManager` feature index and KNN query engine
(`data_manager.py`).

The embedding models the Python class as a Lean structure of parallel
lists and association lists, and the operations as pure functions.
Python floats are modelled as exact rationals; the floating-point square
root is modelled by `ratSqrt`, an exact rational square root on
perfect squares (floor-valued otherwise); `np.inf` used as the Euclidean
sentinel is modelled by `⊤ : WithTop ℚ`.  Python exceptions
(`KeyError` on the caption / frame-path dictionaries, `AssertionError`,
`ValueError`, `IndexError`) are modelled by the `PyError` type; a
function that can leave mutations behind before raising returns
`DataManager × Option PyError`, otherwise `Except PyError`.
-/

/-- Floor square root on naturals, defined by counting the roots `r ≤ n`
with `r * r ≤ n` (kernel-computable). -/
def natSqrt (n : Nat) : Nat :=
  ((List.range (n + 1)).filter (fun r => r * r ≤ n)).length - 1

/-- Model of the floating point square root on nonnegative rationals:
exact on rationals whose numerator times denominator is a perfect
square (in particular on `0`, `1` and all perfect squares), and
floor-like otherwise; nonnegative everywhere. -/
def ratSqrt (q : ℚ) : ℚ :=
  (natSqrt (q.num.toNat * q.den) : ℚ) / (q.den : ℚ)

/-- Sum of squares of the entries of a vector. -/
def sumSq (v : List ℚ) : ℚ :=
  (v.map (fun x => x * x)).sum

/-- Model of `np.linalg.norm` on a 1-D vector. -/
def l2norm (v : List ℚ) : ℚ :=
  ratSqrt (sumSq v)

/-- Model of `sklearn.preprocessing.normalize` on a single row: divide
by the L2 norm, leaving rows of norm zero unchanged (sklearn replaces
zero norms by 1 before dividing). -/
def l2normalize (v : List ℚ) : List ℚ :=
  if l2norm v = 0 then v else v.map (fun x => x / l2norm v)

/-- Python exception outcomes relevant to `data_manager.py`.  The
`KeyError`s raised on the three dictionaries are distinguished by the
dictionary they come from, following the spec's error taxonomy
(MissingCaption, MissingFramePath, and the key-frame lookup). -/
inductive PyError where
  | valueError
  | assertionError
  | indexError
  | missingCaption
  | missingKeyFrames
  | missingFramePath
  deriving DecidableEq, Repr

/-- Association-list lookup modelling a Python dict read: the most
recent binding of the key wins (inserts cons to the front). -/
def alookup {κ ν : Type} [DecidableEq κ] (key : κ) : List (κ × ν) → Option ν
  | [] => none
  | (k, v) :: rest => if k = key then some v else alookup key rest

/-- Digit value of a character, `none` for non-digits. -/
def digitVal (c : Char) : Option Nat :=
  if 48 ≤ c.toNat ∧ c.toNat ≤ 57 then some (c.toNat - 48) else none

/-- Accumulating digits-only parser. -/
def parseNatAux : List Char → Nat → Option Nat
  | [], acc => some acc
  | c :: cs, acc =>
    match digitVal c with
    | none => none
    | some d => parseNatAux cs (acc * 10 + d)

/-- Model of Python `int(s)` for the nonnegative numeric suffixes taken
from file names: parses a nonempty all-digit string, `none` otherwise
(Python raises `ValueError` there). -/
def pyParseNat (s : String) : Option Nat :=
  match s.data with
  | [] => none
  | l => parseNatAux l 0

/-- Model of Python `str.endswith`: whether `suffix` is a suffix of
`s`, decided on the underlying character lists. -/
def strEndsWith (s suffix : String) : Bool :=
  suffix.data.isSuffixOf s.data

/-- Python `xs[i]` on a list, with an integer index and Python's
negative-index semantics: a negative `i` counts from the end, and an
out-of-range index raises `IndexError`. -/
def pyIndex {α : Type} (xs : List α) (i : ℤ) : Except PyError α :=
  let j : ℤ := if i < 0 then i + xs.length else i
  if h : 0 ≤ j ∧ j.toNat < xs.length then .ok (xs.get ⟨j.toNat, h.2⟩)
  else .error .indexError

/-- Effectful map over a list in the `Except` monad, stopping at the
first error (models a Python list comprehension whose body may raise). -/
def mapExcept {α β : Type} (f : α → Except PyError β) : List α → Except PyError (List β)
  | [] => .ok []
  | a :: as =>
    match f a with
    | .error e => .error e
    | .ok b =>
      match mapExcept f as with
      | .error e => .error e
      | .ok bs => .ok (b :: bs)

/-- Model of `np.argmin` accumulator: current best value, its index, and
the index of the element being examined; returns the first index of the
minimum (numpy keeps the first occurrence on ties, since only a strictly
smaller value updates the best). -/
def argminAux {α : Type} [LinearOrder α] : List α → α → Nat → Nat → α × Nat
  | [], best, bi, _ => (best, bi)
  | x :: xs, best, bi, i =>
    if x < best then argminAux xs x i (i + 1) else argminAux xs best bi (i + 1)

/-- Model of `np.argmin` on a 1-D array: first index of the minimum,
`none` on an empty array (numpy raises `ValueError` there). -/
def npArgmin {α : Type} [LinearOrder α] : List α → Option Nat
  | [] => none
  | x :: xs => some (argminAux xs x 0 1).2

/-- Model of `np.argmax` accumulator, symmetric to `argminAux`. -/
def argmaxAux {α : Type} [LinearOrder α] : List α → α → Nat → Nat → α × Nat
  | [], best, bi, _ => (best, bi)
  | x :: xs, best, bi, i =>
    if best < x then argmaxAux xs x i (i + 1) else argmaxAux xs best bi (i + 1)

/-- Model of `np.argmax` on a 1-D array: first index of the maximum,
`none` on an empty array. -/
def npArgmax {α : Type} [LinearOrder α] : List α → Option Nat
  | [] => none
  | x :: xs => some (argmaxAux xs x 0 1).2

/-- Ordering of positions by value (then by position on ties) used to
model `np.argsort`: `vals[i] < vals[j]`, or equal values with `i ≤ j`. -/
def argLe {α : Type} [LinearOrder α] (vals : List α) (d : α) (i j : Nat) : Prop :=
  vals.getD i d < vals.getD j d ∨ (vals.getD i d = vals.getD j d ∧ i ≤ j)

instance argLe.instDecidableRel {α : Type} [LinearOrder α] (vals : List α) (d : α) :
    DecidableRel (argLe vals d) := fun i j => by
  unfold argLe; exact inferInstance

instance argLe.instIsTotal {α : Type} [LinearOrder α] (vals : List α) (d : α) :
    IsTotal Nat (argLe vals d) := by
  constructor
  intro i j
  rcases lt_trichotomy (vals.getD i d) (vals.getD j d) with h | h | h
  · exact Or.inl (Or.inl h)
  · rcases Nat.le_total i j with hij | hij
    · exact Or.inl (Or.inr ⟨h, hij⟩)
    · exact Or.inr (Or.inr ⟨h.symm, hij⟩)
  · exact Or.inr (Or.inl h)

instance argLe.instIsTrans {α : Type} [LinearOrder α] (vals : List α) (d : α) :
    IsTrans Nat (argLe vals d) := by
  constructor
  intro i j k hij hjk
  rcases hij with hij | ⟨hij, hij2⟩
  · rcases hjk with hjk | ⟨hjk, _⟩
    · exact Or.inl (hij.trans hjk)
    · exact Or.inl (hjk ▸ hij)
  · rcases hjk with hjk | ⟨hjk, hjk2⟩
    · exact Or.inl (hij ▸ hjk)
    · exact Or.inr ⟨hij.trans hjk, hij2.trans hjk2⟩

/-- Model of `np.argsort` (ascending): the positions of `vals` sorted by
value; ties are resolved by original position, one fixed deterministic
choice of numpy's unspecified tie order. -/
def npArgsort {α : Type} [LinearOrder α] (d : α) (vals : List α) : List Nat :=
  List.insertionSort (argLe vals d) (List.range vals.length)

/-- The in-memory state of `DataManager`: the three parallel corpus
sequences, the three dict-backed stores, the raw caption list and the
per-segment feature file map.  Captions are keyed by
`(video name, segment index)`, frame paths by
`(video segment name, frame index)` (frame indices are Python ints,
hence `ℤ`), key frames by video segment name. -/
structure DataManager where
  video_seg_id_to_caption : List ((String × Nat) × String)
  video_seg_frame_path : List ((String × ℤ) × String)
  features : List (List ℚ)
  captions : List String
  raw_captions : List String
  frame_paths : List String
  video_seg_feature_path : List (String × String)
  key_frames : List (String × List ℤ)
  deriving DecidableEq

/-- Model of `DataManager.__init__`: every store empty. -/
def DataManager.init : DataManager :=
  ⟨[], [], [], [], [], [], [], []⟩

/-- One directory of the `os.walk` in `load_frame_path_info`: the root
path together with its (sorted) file names. -/
def processFramePathDir (dm : DataManager) : List String → String →
    DataManager × Option PyError
  | [], _ => (dm, none)
  | file :: rest, root =>
    if strEndsWith file ".jpg" then
      let file_path := root ++ "/" ++ file
      let parts := file_path.splitOn "/"
      let video_segment_name := parts.getD (parts.length - 2) ""
      match pyParseNat (((file.splitOn ".").headD "")) with
      | none => (dm, some .valueError)
      | some n =>
        let frame_number : ℤ := (n : ℤ) - 1
        processFramePathDir
          { dm with video_seg_frame_path :=
              ((video_segment_name, frame_number), file_path) :: dm.video_seg_frame_path }
          rest root
    else processFramePathDir dm rest root

/-- Model of `load_frame_path_info`: walk the frame folder (given as a
list of `(root, files)` directories), recording the path of every
`.jpg` frame under its `(video segment name, 0-based frame index)` key;
the frame index is the numeral before the extension, minus one. -/
def load_frame_path_info (dm : DataManager) :
    List (String × List String) → DataManager × Option PyError
  | [] => (dm, none)
  | (root, files) :: dirs =>
    match processFramePathDir dm files root with
    | (dm', none) => load_frame_path_info dm' dirs
    | (dm', some e) => (dm', some e)

/-- Inner loop of `load_captions` over one video's sentence list,
assigning segment indices by position. -/
def insertCaptions (video_name : String) (dm : DataManager) :
    List String → Nat → DataManager
  | [], _ => dm
  | s :: rest, seg_id =>
    insertCaptions video_name
      { dm with video_seg_id_to_caption :=
          ((video_name, seg_id), s) :: dm.video_seg_id_to_caption }
      rest (seg_id + 1)

/-- Model of `load_captions`: for every video of the caption database
(given as `(video name, sentences)` pairs), extend `raw_captions` with
the sentences and record each sentence under `(video name, position)`. -/
def load_captions (dm : DataManager) : List (String × List String) → DataManager
  | [] => dm
  | (video_name, sentences) :: rest =>
    let dm1 := { dm with raw_captions := dm.raw_captions ++ sentences }
    load_captions (insertCaptions video_name dm1 sentences 0) rest

/-- Model of `load_key_frame_information`: for every `.txt` file (given
as `(file name, parsed integer list)`), check the 14-character minimum
on the stem and record the key-frame set of that video segment. -/
def load_key_frame_information (dm : DataManager) :
    List (String × List ℤ) → DataManager × Option PyError
  | [] => (dm, none)
  | (file, data) :: rest =>
    if strEndsWith file ".txt" then
      let video_segment_name := file.dropRight 4
      if video_segment_name.length < 14 then (dm, some .assertionError)
      else
        load_key_frame_information
          { dm with key_frames := (video_segment_name, data) :: dm.key_frames } rest
    else load_key_frame_information dm rest

/-- Inner loop of `load_features` over the rows of one feature file:
for every row whose 0-based position is in the segment's key-frame set,
append the row to `features` and the caption to `captions`, then look
up the frame path and append it; a missing frame path raises `KeyError`
after the first two appends already happened, leaving the three
sequences misaligned. -/
def processLines (name caption : String) (kfs : List ℤ) (dm : DataManager) :
    List (List ℚ) → ℤ → DataManager × Option PyError
  | [], _ => (dm, none)
  | line :: rest, count =>
    if count ∈ kfs then
      let dm1 := { dm with
        features := dm.features ++ [line],
        captions := dm.captions ++ [caption] }
      match alookup (name, count) dm1.video_seg_frame_path with
      | none => (dm1, some .missingFramePath)
      | some p =>
        processLines name caption kfs
          { dm1 with frame_paths := dm1.frame_paths ++ [p] } rest (count + 1)
    else processLines name caption kfs dm rest (count + 1)

/-- Processing of one `.txt` feature file inside `load_features`:
record its path, decompose the stem into video name (13-character
prefix) and segment index (numeric suffix), resolve the caption and the
key-frame set, then scan the rows. -/
def processFile (dm : DataManager) (fname : String) (lines : List (List ℚ)) :
    DataManager × Option PyError :=
  if (fname.dropRight 4).length < 14 then (dm, some .assertionError)
  else
    match pyParseNat ((fname.dropRight 4).drop 13) with
    | none => (dm, some .valueError)
    | some segment_id =>
      match alookup ((fname.dropRight 4).take 13, segment_id) dm.video_seg_id_to_caption with
      | none =>
        ({ dm with video_seg_feature_path :=
            (fname.dropRight 4, fname) :: dm.video_seg_feature_path }, some .missingCaption)
      | some caption =>
        match alookup (fname.dropRight 4) dm.key_frames with
        | none =>
          ({ dm with video_seg_feature_path :=
              (fname.dropRight 4, fname) :: dm.video_seg_feature_path }, some .missingKeyFrames)
        | some kfs =>
          processLines (fname.dropRight 4) caption kfs
            { dm with video_seg_feature_path :=
                (fname.dropRight 4, fname) :: dm.video_seg_feature_path }
            lines 0

/-- Model of `load_features`: walk the feature folder (files given in
walk order as `(file name, parsed rows)`), skipping non-`.txt` files
and assembling the corpus; the final `np.array` cast is a no-op here.
Mutations made before an exception persist, so the state is returned
together with the error. -/
def load_features (dm : DataManager) :
    List (String × List (List ℚ)) → DataManager × Option PyError
  | [] => (dm, none)
  | (fname, lines) :: rest =>
    if strEndsWith fname ".txt" then
      match processFile dm fname lines with
      | (dm', none) => load_features dm' rest
      | (dm', some e) => (dm', some e)
    else load_features dm rest

/-- Model of `normalize_features`: replace every corpus vector by its
L2-normalized form. -/
def normalize_features (dm : DataManager) : DataManager :=
  { dm with features := dm.features.map l2normalize }

/-- Model of `np.dot` on two 1-D arrays: sum of elementwise products;
mismatched lengths raise `ValueError` (dot does not broadcast). -/
def npDot (a b : List ℚ) : Except PyError ℚ :=
  if a.length = b.length then .ok ((List.zipWith (fun x y => x * y) a b).sum)
  else .error .valueError

/-- Model of numpy elementwise subtraction of two 1-D arrays with
broadcasting: elementwise on equal lengths, a length-1 operand
broadcasts, anything else raises `ValueError`. -/
def npSub (a b : List ℚ) : Except PyError (List ℚ) :=
  if a.length = b.length then .ok (List.zipWith (fun x y => x - y) a b)
  else if b.length = 1 then .ok (a.map (fun x => x - b.headD 0))
  else if a.length = 1 then .ok (b.map (fun y => a.headD 0 - y))
  else .error .valueError

/-- Whether a corpus vector's similarity with the (normalized) query
is strictly above `-1`, i.e. whether the cosine scan can ever insert
it: the working set's scores never drop below the `-1.0` sentinel, and
insertion requires strictly exceeding the current minimum. -/
def simGtNegOne (q : List ℚ) (f : List ℚ) : Bool :=
  match npDot f q with
  | .ok s => decide (-1 < s)
  | .error _ => false

/-- The scan loop of `query_knn_caption_brutal_force_cosine_similarity`:
for each corpus vector, the dot product with the normalized query is
the similarity; the two asserts bound it by `[-1.01, 1.01]`; if it
strictly exceeds the current minimum of the working set, that minimum
entry is replaced by the new `(score, index)` pair.  `sims` starts as
`k` copies of the `-1.0` sentinel, `idxs` as `k` copies of `-1`. -/
def scanCosine (q : List ℚ) : List (List ℚ) → Nat → List ℚ → List ℤ →
    Except PyError (List ℚ × List ℤ)
  | [], _, sims, idxs => .ok (sims, idxs)
  | f :: fs, i, sims, idxs =>
    match npDot f q with
    | .error e => .error e
    | .ok s =>
      if -1.01 ≤ s then
        if s ≤ 1.01 then
          match npArgmin sims with
          | none => .error .valueError
          | some m =>
            if sims.getD m 0 < s then
              scanCosine q fs (i + 1) (sims.set m s) (idxs.set m (i : ℤ))
            else scanCosine q fs (i + 1) sims idxs
        else .error .assertionError
      else .error .assertionError

/-- Model of `query_knn_caption_brutal_force_cosine_similarity`:
initialize the working set to sentinel score `-1.0` and index `-1`,
L2-normalize the query, scan the corpus, sort the retained entries by
descending score (`argsort` then reverse), and emit the captions and
frame paths of the retained indices by Python list indexing. -/
def query_knn_caption_brutal_force_cosine_similarity (dm : DataManager)
    (query_feature : List ℚ) (k : Nat) :
    Except PyError (List String × List String × List ℚ) :=
  match scanCosine (l2normalize query_feature) dm.features 0
      (List.replicate k (-1)) (List.replicate k (-1)) with
  | .error e => .error e
  | .ok (sims, idxs) =>
    match mapExcept (pyIndex dm.captions)
        (((npArgsort 0 sims).reverse).map (fun j => idxs.getD j (-1))) with
    | .error e => .error e
    | .ok caps =>
      match mapExcept (pyIndex dm.frame_paths)
          (((npArgsort 0 sims).reverse).map (fun j => idxs.getD j (-1))) with
      | .error e => .error e
      | .ok fps => .ok (caps, fps, ((npArgsort 0 sims).reverse).map (fun j => sims.getD j 0))

/-- The scan loop of `query_knn_caption_brutal_force_euclidean_distance`:
for each corpus vector, the distance is the L2 norm of the difference
with the (raw, un-normalized) query; if it is strictly below the
current maximum of the working set, that maximum entry is replaced.
`dists` starts as `k` copies of the `np.inf` sentinel (`⊤`), `idxs` as
`k` copies of `-1`. -/
def scanEuclidean (q : List ℚ) : List (List ℚ) → Nat → List (WithTop ℚ) → List ℤ →
    Except PyError (List (WithTop ℚ) × List ℤ)
  | [], _, dists, idxs => .ok (dists, idxs)
  | f :: fs, i, dists, idxs =>
    match npSub f q with
    | .error e => .error e
    | .ok d =>
      let dist : WithTop ℚ := (l2norm d : ℚ)
      match npArgmax dists with
      | none => .error .valueError
      | some m =>
        if dist < dists.getD m ⊤ then
          scanEuclidean q fs (i + 1) (dists.set m dist) (idxs.set m (i : ℤ))
        else scanEuclidean q fs (i + 1) dists idxs

/-- Model of `query_knn_caption_brutal_force_euclidean_distance`:
initialize the working set to sentinel distance `np.inf` and index
`-1`, scan the corpus, sort the retained entries by ascending distance,
and emit the captions and frame paths of the retained indices by Python
list indexing. -/
def query_knn_caption_brutal_force_euclidean_distance (dm : DataManager)
    (query_feature : List ℚ) (k : Nat) :
    Except PyError (List String × List String × List (WithTop ℚ)) :=
  match scanEuclidean query_feature dm.features 0
      (List.replicate k ⊤) (List.replicate k (-1)) with
  | .error e => .error e
  | .ok (dists, idxs) =>
    match mapExcept (pyIndex dm.captions)
        ((npArgsort ⊤ dists).map (fun j => idxs.getD j (-1))) with
    | .error e => .error e
    | .ok caps =>
      match mapExcept (pyIndex dm.frame_paths)
          ((npArgsort ⊤ dists).map (fun j => idxs.getD j (-1))) with
      | .error e => .error e
      | .ok fps => .ok (caps, fps, (npArgsort ⊤ dists).map (fun j => dists.getD j ⊤))

/-- Model of `get_frames_path`: the frame paths of a segment's key
frames, by dict lookups that may raise `KeyError`. -/
def get_frames_path (dm : DataManager) (video_segment_name : String) :
    Except PyError (List String) :=
  match alookup video_segment_name dm.key_frames with
  | none => .error .missingKeyFrames
  | some kfs => mapExcept (fun kf =>
      match alookup (video_segment_name, kf) dm.video_seg_frame_path with
      | none => .error .missingFramePath
      | some p => .ok p) kfs

/-- Model of `get_video_segment_caption`: decompose the segment name by
the 13-character prefix rule and look the caption up. -/
def get_video_segment_caption (dm : DataManager) (video_segment_name : String) :
    Except PyError String :=
  match pyParseNat (video_segment_name.drop 13) with
  | none => .error .valueError
  | some seg_id =>
    match alookup (video_segment_name.take 13, seg_id) dm.video_seg_id_to_caption with
    | none => .error .missingCaption
    | some c => .ok c

/-- The alignment invariant of the three corpus sequences. -/
def corpusAligned (dm : DataManager) : Prop :=
  dm.features.length = dm.captions.length ∧ dm.captions.length = dm.frame_paths.length

instance corpusAligned.instDecidable (dm : DataManager) : Decidable (corpusAligned dm) := by
  unfold corpusAligned; exact inferInstance

/-- Number of rows of a feature file kept by the key-frame filter, when
the row counter starts at `c`. -/
def countKeyFrom (kfs : List ℤ) : ℤ → Nat → Nat
  | _, 0 => 0
  | c, Nat.succ n => (if c ∈ kfs then 1 else 0) + countKeyFrom kfs (c + 1) n

/-- Size of the intersection of a key-frame set with the frame indices
`0, ..., n-1` that have an extracted feature row. -/
def keyFrameHits (kfs : List ℤ) (n : Nat) : Nat :=
  ((List.range n).filter (fun t : Nat => decide ((t : ℤ) ∈ kfs))).length

def dmC8 : DataManager :=
  ⟨[(("abcdefghijklm", 0), "capS")], [(("abcdefghijklm0", 0), "p0")], [], [], [], [],
    [], [("abcdefghijklm0", [0, 2])]⟩

def dmC8out : DataManager :=
  ⟨[(("abcdefghijklm", 0), "capS")], [(("abcdefghijklm0", 0), "p0")], [[1]], ["capS"], [],
    ["p0"], [("abcdefghijklm0", "abcdefghijklm0.txt")], [("abcdefghijklm0", [0, 2])]⟩

def dmC9 : DataManager :=
  ⟨[], [], [[3/5, 4/5], [1, 0]], ["a", "b"], [], ["pa", "pb"], [], []⟩

def dmC10a : DataManager :=
  ⟨[], [], [[1, 0]], ["a"], ["raw"], ["p"], [], []⟩

def dmC10b : DataManager :=
  ⟨[(("v", 0), "c")], [], [[1, 0]], ["a"], [], ["p"], [("s", "f")], [("s", [3])]⟩

def dmC1 : DataManager :=
  ⟨[], [], [[1, 0], [0, 1]], ["a", "b"], [], ["pa", "pb"], [], []⟩

def dmC2 : DataManager :=
  ⟨[], [], [[1, 0], [0, 0]], ["a", "b"], [], ["pa", "pb"], [], []⟩

def dmC3 : DataManager :=
  ⟨[(("abcdefghijklm", 0), "cap")], [], [], [], [], [], [], [("abcdefghijklm0", [0])]⟩

def dmC3out : DataManager :=
  ⟨[(("abcdefghijklm", 0), "cap")], [], [[1, 2]], ["cap"], [],
    [], [("abcdefghijklm0", "abcdefghijklm0.txt")], [("abcdefghijklm0", [0])]⟩

def dmC4 : DataManager :=
  ⟨[], [], [[-1, 0]], ["a"], [], ["p"], [], []⟩

def dmC4w : DataManager :=
  ⟨[], [], [[-1, 0], [0, 1]], ["a", "b"], [], ["pa", "pb"], [], []⟩

def dmC5 : DataManager :=
  ⟨[], [], [[1, 0]], ["a"], [], ["p"], [], []⟩

def dmC6 : DataManager :=
  ⟨[], [], [[1, 0]], ["a"], [], ["p"], [], []⟩

theorem natSqrt_zero : natSqrt 0 = 0 := by decide

theorem natSqrt_one : natSqrt 1 = 1 := by decide

theorem ratSqrt_zero : ratSqrt 0 = 0 := by norm_num [ratSqrt, natSqrt_zero]

theorem ratSqrt_one : ratSqrt 1 = 1 := by norm_num [ratSqrt, natSqrt_one]

theorem ratSqrt_nonneg (q : ℚ) : 0 ≤ ratSqrt q :=
  div_nonneg (Nat.cast_nonneg _) (Nat.cast_nonneg _)

theorem l2norm_nonneg (v : List ℚ) : 0 ≤ l2norm v :=
  ratSqrt_nonneg _

theorem l2norm_of_sumSq_one {v : List ℚ} (h : sumSq v = 1) : l2norm v = 1 := by
  rw [l2norm, h, ratSqrt_one]

theorem l2normalize_of_sumSq_one {v : List ℚ} (h : sumSq v = 1) : l2normalize v = v := by
  rw [l2normalize, l2norm_of_sumSq_one h]
  norm_num

theorem l2normalize_length (v : List ℚ) : (l2normalize v).length = v.length := by
  rw [l2normalize]
  split
  · rfl
  · exact List.length_map v _

theorem getD_eq_get {α : Type} (l : List α) (n : Nat) (d : α) (h : n < l.length) :
    l.getD n d = l.get ⟨n, h⟩ := by
  simp [List.getD_eq_getElem?_getD, List.getElem?_eq_getElem h]

theorem get_map_eq {α β : Type} (f : α → β) (l : List α) (t : Nat)
    (h : t < (l.map f).length) (h2 : t < l.length) :
    (l.map f).get ⟨t, h⟩ = f (l.get ⟨t, h2⟩) := by
  simp [List.get_eq_getElem, List.getElem_map]

theorem getD_mem {α : Type} (l : List α) (n : Nat) (d : α) (h : n < l.length) :
    l.getD n d ∈ l := by
  rw [getD_eq_get l n d h]
  exact l.get_mem _ _

theorem map_getD_range {α : Type} (l : List α) (d : α) :
    (List.range l.length).map (fun j => l.getD j d) = l := by
  apply List.ext_getElem
  · simp
  · intro n h1 h2
    have hr : n < (List.range l.length).length := by simpa using h2
    rw [List.getElem_map]
    rw [List.getElem_range]
    exact getD_eq_get l n d h2

theorem countP_set_succ {α : Type} (p : α → Bool) :
    ∀ (l : List α) (m : Nat) (v : α), m < l.length →
      p (l.getD m v) = true → p v = false →
      (l.set m v).countP p + 1 = l.countP p := by
  intro l
  induction l with
  | nil => intro m v h; simp at h
  | cons a as ih =>
    intro m v hm hp hv
    cases m with
    | zero =>
      simp only [List.getD_cons_zero] at hp
      simp [List.countP_cons, hp, hv]
    | succ m =>
      simp only [List.getD_cons_succ] at hp
      have hm' : m < as.length := by simpa using hm
      have := ih m v hm' hp hv
      simp only [List.set_cons_succ, List.countP_cons]
      omega

theorem getD_replicate_lt {α : Type} (k j : Nat) (a d : α) (h : j < k) :
    (List.replicate k a).getD j d = a := by
  rw [getD_eq_get _ _ _ (by simpa using h)]
  simp [List.getElem_replicate]

theorem countP_replicate_true {α : Type} (p : α → Bool) (k : Nat) (a : α) (h : p a = true) :
    (List.replicate k a).countP p = k := by
  induction k with
  | zero => rfl
  | succ n ih => simp [List.replicate_succ, List.countP_cons, ih, h]

theorem mapExcept_length {α β : Type} (f : α → Except PyError β) :
    ∀ (xs : List α) (ys : List β), mapExcept f xs = .ok ys → ys.length = xs.length := by
  intro xs
  induction xs with
  | nil => intro ys h; simp only [mapExcept] at h; cases h; rfl
  | cons a as ih =>
    intro ys h
    simp only [mapExcept] at h
    cases hfa : f a with
    | error e => rw [hfa] at h; cases h
    | ok b =>
      rw [hfa] at h
      cases hrest : mapExcept f as with
      | error e => rw [hrest] at h; cases h
      | ok bs =>
        rw [hrest] at h
        cases h
        simp [ih bs hrest]

theorem mapExcept_get {α β : Type} (f : α → Except PyError β) :
    ∀ (xs : List α) (ys : List β), mapExcept f xs = .ok ys →
      ∀ (i : Nat) (hi : i < xs.length) (hi2 : i < ys.length),
        f (xs.get ⟨i, hi⟩) = .ok (ys.get ⟨i, hi2⟩) := by
  intro xs
  induction xs with
  | nil => intro ys h i hi; simp at hi
  | cons a as ih =>
    intro ys h i hi hi2
    simp only [mapExcept] at h
    cases hfa : f a with
    | error e => rw [hfa] at h; cases h
    | ok b =>
      rw [hfa] at h
      cases hrest : mapExcept f as with
      | error e => rw [hrest] at h; cases h
      | ok bs =>
        rw [hrest] at h
        cases h
        cases i with
        | zero => simpa using hfa
        | succ n =>
          have hn : n < as.length := by simpa using hi
          have hn2 : n < bs.length := by simpa using hi2
          simpa using ih bs hrest n hn hn2

theorem mapExcept_cons_error {α β : Type} (f : α → Except PyError β) (a : α) (as : List α)
    (e : PyError) (h : f a = .error e) : mapExcept f (a :: as) = .error e := by
  simp [mapExcept, h]

theorem pyIndex_nil {α : Type} (i : ℤ) : pyIndex ([] : List α) i = .error .indexError := by
  simp [pyIndex]

theorem pyIndex_neg_one {α : Type} (xs : List α) (h : xs ≠ []) :
    pyIndex xs (-1) = .ok (xs.getLast h) := by
  have hlen : 1 ≤ xs.length := List.length_pos.mpr h
  have hj : (if (-1 : ℤ) < 0 then -1 + (xs.length : ℤ) else -1) = (xs.length : ℤ) - 1 := by
    rw [if_pos (by norm_num)]; ring
  rw [pyIndex]
  simp only [hj]
  have h0 : (0 : ℤ) ≤ (xs.length : ℤ) - 1 := by omega
  have ht : ((xs.length : ℤ) - 1).toNat = xs.length - 1 := by omega
  have hlt : ((xs.length : ℤ) - 1).toNat < xs.length := by omega
  rw [dif_pos ⟨h0, hlt⟩]
  congr 1
  rw [List.getLast_eq_getElem]
  simp only [List.get_eq_getElem]
  congr 1

theorem pyIndex_natCast {α : Type} (xs : List α) (n : Nat) (h : n < xs.length) :
    pyIndex xs (n : ℤ) = .ok (xs.get ⟨n, h⟩) := by
  have hj : (if (n : ℤ) < 0 then (n : ℤ) + (xs.length : ℤ) else (n : ℤ)) = (n : ℤ) := by
    rw [if_neg (by omega)]
  rw [pyIndex]
  simp only [hj]
  have h0 : (0 : ℤ) ≤ (n : ℤ) := by omega
  have hlt : ((n : ℤ)).toNat < xs.length := by omega
  rw [dif_pos ⟨h0, hlt⟩]
  congr 1

theorem argminAux_idx {α : Type} [LinearOrder α] :
    ∀ (xs : List α) (best : α) (bi i : Nat),
      argminAux xs best bi i = (best, bi) ∨
        ∃ (j : Nat) (hj : j < xs.length), argminAux xs best bi i = (xs.get ⟨j, hj⟩, i + j) := by
  intro xs
  induction xs with
  | nil => intro best bi i; exact Or.inl rfl
  | cons x xs ih =>
    intro best bi i
    by_cases hx : x < best
    · rw [argminAux, if_pos hx]
      rcases ih x i (i + 1) with h | ⟨j, hj, h⟩
      · exact Or.inr ⟨0, by simp, by simpa using h⟩
      · refine Or.inr ⟨j + 1, by simpa using hj, ?_⟩
        rw [h]
        simp only [List.get_eq_getElem, List.getElem_cons_succ]
        congr 1
        omega
    · rw [argminAux, if_neg hx]
      rcases ih best bi (i + 1) with h | ⟨j, hj, h⟩
      · exact Or.inl h
      · refine Or.inr ⟨j + 1, by simpa using hj, ?_⟩
        rw [h]
        simp only [List.get_eq_getElem, List.getElem_cons_succ]
        congr 1
        omega

theorem npArgmin_lt_length {α : Type} [LinearOrder α] (l : List α) (m : Nat)
    (h : npArgmin l = some m) : m < l.length := by
  cases l with
  | nil => simp [npArgmin] at h
  | cons x xs =>
    simp only [npArgmin, Option.some.injEq] at h
    rcases argminAux_idx xs x 0 1 with h2 | ⟨j, hj, h2⟩
    · rw [h2] at h; simp at h ⊢; omega
    · rw [h2] at h
      simp only at h
      subst h
      simp
      omega

theorem argmaxAux_idx {α : Type} [LinearOrder α] :
    ∀ (xs : List α) (best : α) (bi i : Nat),
      argmaxAux xs best bi i = (best, bi) ∨
        ∃ (j : Nat) (hj : j < xs.length), argmaxAux xs best bi i = (xs.get ⟨j, hj⟩, i + j) := by
  intro xs
  induction xs with
  | nil => intro best bi i; exact Or.inl rfl
  | cons x xs ih =>
    intro best bi i
    by_cases hx : best < x
    · rw [argmaxAux, if_pos hx]
      rcases ih x i (i + 1) with h | ⟨j, hj, h⟩
      · exact Or.inr ⟨0, by simp, by simpa using h⟩
      · refine Or.inr ⟨j + 1, by simpa using hj, ?_⟩
        rw [h]
        simp only [List.get_eq_getElem, List.getElem_cons_succ]
        congr 1
        omega
    · rw [argmaxAux, if_neg hx]
      rcases ih best bi (i + 1) with h | ⟨j, hj, h⟩
      · exact Or.inl h
      · refine Or.inr ⟨j + 1, by simpa using hj, ?_⟩
        rw [h]
        simp only [List.get_eq_getElem, List.getElem_cons_succ]
        congr 1
        omega

theorem argmaxAux_le {α : Type} [LinearOrder α] :
    ∀ (xs : List α) (best : α) (bi i : Nat),
      best ≤ (argmaxAux xs best bi i).1 ∧ ∀ y ∈ xs, y ≤ (argmaxAux xs best bi i).1 := by
  intro xs
  induction xs with
  | nil => intro best bi i; exact ⟨le_refl _, by simp⟩
  | cons x xs ih =>
    intro best bi i
    by_cases hx : best < x
    · rw [argmaxAux, if_pos hx]
      obtain ⟨h1, h2⟩ := ih x i (i + 1)
      refine ⟨le_of_lt (lt_of_lt_of_le hx h1), ?_⟩
      intro y hy
      rcases List.mem_cons.mp hy with rfl | hy
      · exact h1
      · exact h2 y hy
    · rw [argmaxAux, if_neg hx]
      obtain ⟨h1, h2⟩ := ih best bi (i + 1)
      refine ⟨h1, ?_⟩
      intro y hy
      rcases List.mem_cons.mp hy with rfl | hy
      · exact le_trans (not_lt.mp hx) h1
      · exact h2 y hy

theorem npArgmax_lt_length {α : Type} [LinearOrder α] (l : List α) (m : Nat)
    (h : npArgmax l = some m) : m < l.length := by
  cases l with
  | nil => simp [npArgmax] at h
  | cons x xs =>
    simp only [npArgmax, Option.some.injEq] at h
    rcases argmaxAux_idx xs x 0 1 with h2 | ⟨j, hj, h2⟩
    · rw [h2] at h; simp at h ⊢; omega
    · rw [h2] at h
      simp only at h
      subst h
      simp
      omega

theorem npArgmax_getD_max {α : Type} [LinearOrder α] (l : List α) (m : Nat) (d : α)
    (h : npArgmax l = some m) : ∀ y ∈ l, y ≤ l.getD m d := by
  cases l with
  | nil => simp [npArgmax] at h
  | cons x xs =>
    simp only [npArgmax, Option.some.injEq] at h
    have hval : (x :: xs).getD m d = (argmaxAux xs x 0 1).1 := by
      rcases argmaxAux_idx xs x 0 1 with h2 | ⟨j, hj, h2⟩
      · rw [h2] at h ⊢
        simp only at h
        subst h
        simp [h2]
      · rw [h2] at h
        simp only at h
        subst h
        rw [h2]
        simp only
        rw [getD_eq_get _ _ _ (by simp; omega)]
        simp only [List.get_eq_getElem]
        have : 1 + j = j + 1 := by omega
        simp [this]
    rw [hval]
    intro y hy
    obtain ⟨h1, h2⟩ := argmaxAux_le xs x 0 1
    rcases List.mem_cons.mp hy with rfl | hy
    · exact h1
    · exact h2 y hy

theorem npArgsort_perm {α : Type} [LinearOrder α] (d : α) (vals : List α) :
    List.Perm (npArgsort d vals) (List.range vals.length) :=
  List.perm_insertionSort _ _

theorem npArgsort_length {α : Type} [LinearOrder α] (d : α) (vals : List α) :
    (npArgsort d vals).length = vals.length := by
  rw [(npArgsort_perm d vals).length_eq, List.length_range]

theorem npArgsort_mem_lt {α : Type} [LinearOrder α] (d : α) (vals : List α) (j : Nat)
    (h : j ∈ npArgsort d vals) : j < vals.length := by
  have := (npArgsort_perm d vals).mem_iff.mp h
  simpa using this

theorem npArgsort_map_perm {α : Type} [LinearOrder α] (d : α) (vals : List α) :
    List.Perm ((npArgsort d vals).map (fun j => vals.getD j d)) vals := by
  have h1 := (npArgsort_perm d vals).map (fun j => vals.getD j d)
  rw [map_getD_range vals d] at h1
  exact h1

theorem npArgsort_sorted {α : Type} [LinearOrder α] (d : α) (vals : List α) :
    (npArgsort d vals).Pairwise (argLe vals d) :=
  List.sorted_insertionSort _ _

theorem npArgsort_map_pairwise {α : Type} [LinearOrder α] (d : α) (vals : List α) :
    ((npArgsort d vals).map (fun j => vals.getD j d)).Pairwise (· ≤ ·) := by
  rw [List.pairwise_map]
  apply (npArgsort_sorted d vals).imp
  intro i j hij
  rcases hij with h | ⟨h, _⟩
  · exact le_of_lt h
  · exact le_of_eq h

theorem scanCosine_lengths (q : List ℚ) :
    ∀ (fs : List (List ℚ)) (i : Nat) (sims : List ℚ) (idxs : List ℤ)
      (sims' : List ℚ) (idxs' : List ℤ),
      scanCosine q fs i sims idxs = .ok (sims', idxs') →
      sims'.length = sims.length ∧ idxs'.length = idxs.length := by
  intro fs
  induction fs with
  | nil =>
    intro i sims idxs sims' idxs' h
    simp only [scanCosine] at h
    cases h
    exact ⟨rfl, rfl⟩
  | cons f fs ih =>
    intro i sims idxs sims' idxs' h
    simp only [scanCosine] at h
    cases hdot : npDot f q with
    | error e => simp only [hdot] at h; cases h
    | ok s =>
      simp only [hdot] at h
      by_cases h1 : -1.01 ≤ s
      · rw [if_pos h1] at h
        by_cases h2 : s ≤ 1.01
        · rw [if_pos h2] at h
          cases hmin : npArgmin sims with
          | none => simp only [hmin] at h; cases h
          | some m =>
            simp only [hmin] at h
            by_cases h3 : sims.getD m 0 < s
            · rw [if_pos h3] at h
              have := ih (i + 1) (sims.set m s) (idxs.set m (i : ℤ)) sims' idxs' h
              simpa using this
            · rw [if_neg h3] at h
              exact ih (i + 1) sims idxs sims' idxs' h
        · rw [if_neg h2] at h; cases h
      · rw [if_neg h1] at h; cases h

theorem scanCosine_bounds (q : List ℚ) :
    ∀ (fs : List (List ℚ)) (i : Nat) (sims : List ℚ) (idxs : List ℤ)
      (sims' : List ℚ) (idxs' : List ℤ),
      (∀ x ∈ sims, -1.01 ≤ x ∧ x ≤ 1.01) →
      scanCosine q fs i sims idxs = .ok (sims', idxs') →
      ∀ x ∈ sims', -1.01 ≤ x ∧ x ≤ 1.01 := by
  intro fs
  induction fs with
  | nil =>
    intro i sims idxs sims' idxs' hb h
    simp only [scanCosine] at h
    cases h
    exact hb
  | cons f fs ih =>
    intro i sims idxs sims' idxs' hb h
    simp only [scanCosine] at h
    cases hdot : npDot f q with
    | error e => simp only [hdot] at h; cases h
    | ok s =>
      simp only [hdot] at h
      by_cases h1 : -1.01 ≤ s
      · rw [if_pos h1] at h
        by_cases h2 : s ≤ 1.01
        · rw [if_pos h2] at h
          cases hmin : npArgmin sims with
          | none => simp only [hmin] at h; cases h
          | some m =>
            simp only [hmin] at h
            by_cases h3 : sims.getD m 0 < s
            · rw [if_pos h3] at h
              refine ih (i + 1) (sims.set m s) (idxs.set m (i : ℤ)) sims' idxs' ?_ h
              intro x hx
              rcases List.mem_or_eq_of_mem_set hx with hx | rfl
              · exact hb x hx
              · exact ⟨h1, h2⟩
            · rw [if_neg h3] at h
              exact ih (i + 1) sims idxs sims' idxs' hb h
        · rw [if_neg h2] at h; cases h
      · rw [if_neg h1] at h; cases h

theorem scanCosine_sentinel (q : List ℚ) (jv : Nat) :
    ∀ (fs : List (List ℚ)) (i : Nat) (sims : List ℚ) (idxs : List ℤ)
      (sims' : List ℚ) (idxs' : List ℤ),
      (∀ x ∈ sims, -1 ≤ x) →
      ((jv : ℤ) ∉ idxs) →
      (∀ (t : Nat) (ht : t < fs.length), i + t = jv →
        ∀ s, npDot (fs.get ⟨t, ht⟩) q = .ok s → s ≤ -1) →
      scanCosine q fs i sims idxs = .ok (sims', idxs') →
      ((jv : ℤ) ∉ idxs') ∧ ∀ x ∈ sims', -1 ≤ x := by
  intro fs
  induction fs with
  | nil =>
    intro i sims idxs sims' idxs' hge hnm _ h
    simp only [scanCosine] at h
    cases h
    exact ⟨hnm, hge⟩
  | cons f fs ih =>
    intro i sims idxs sims' idxs' hge hnm hrec h
    simp only [scanCosine] at h
    cases hdot : npDot f q with
    | error e => simp only [hdot] at h; cases h
    | ok s =>
      simp only [hdot] at h
      by_cases h1 : -1.01 ≤ s
      · rw [if_pos h1] at h
        by_cases h2 : s ≤ 1.01
        · rw [if_pos h2] at h
          cases hmin : npArgmin sims with
          | none => simp only [hmin] at h; cases h
          | some m =>
            simp only [hmin] at h
            have hrec' : ∀ (t : Nat) (ht : t < fs.length), (i + 1) + t = jv →
                ∀ s2, npDot (fs.get ⟨t, ht⟩) q = .ok s2 → s2 ≤ -1 := by
              intro t ht hidx s2 hd
              have ht' : t + 1 < (f :: fs).length := by simpa using Nat.succ_lt_succ ht
              have : (f :: fs).get ⟨t + 1, ht'⟩ = fs.get ⟨t, ht⟩ := by simp
              exact hrec (t + 1) ht' (by omega) s2 (by rw [this]; exact hd)
            by_cases h3 : sims.getD m 0 < s
            · rw [if_pos h3] at h
              have hm : m < sims.length := npArgmin_lt_length sims m hmin
              have hmge : -1 ≤ sims.getD m 0 := hge _ (getD_mem sims m 0 hm)
              have hs : -1 < s := lt_of_le_of_lt hmge h3
              have hne : i ≠ jv := by
                intro heq
                have := hrec 0 (by simp) (by omega) s (by simpa using hdot)
                exact absurd hs (by linarith)
              refine ih (i + 1) (sims.set m s) (idxs.set m (i : ℤ)) sims' idxs' ?_ ?_ hrec' h
              · intro x hx
                rcases List.mem_or_eq_of_mem_set hx with hx | rfl
                · exact hge x hx
                · exact le_of_lt hs
              · intro hmem
                rcases List.mem_or_eq_of_mem_set hmem with hmem | heq
                · exact hnm hmem
                · exact hne (by exact_mod_cast heq.symm)
            · rw [if_neg h3] at h
              exact ih (i + 1) sims idxs sims' idxs' hge hnm hrec' h
        · rw [if_neg h2] at h; cases h
      · rw [if_neg h1] at h; cases h

theorem argminAux_le {α : Type} [LinearOrder α] :
    ∀ (xs : List α) (best : α) (bi i : Nat),
      (argminAux xs best bi i).1 ≤ best ∧ ∀ y ∈ xs, (argminAux xs best bi i).1 ≤ y := by
  intro xs
  induction xs with
  | nil => intro best bi i; exact ⟨le_refl _, by simp⟩
  | cons x xs ih =>
    intro best bi i
    by_cases hx : x < best
    · rw [argminAux, if_pos hx]
      obtain ⟨h1, h2⟩ := ih x i (i + 1)
      refine ⟨le_of_lt (lt_of_le_of_lt h1 hx), ?_⟩
      intro y hy
      rcases List.mem_cons.mp hy with rfl | hy
      · exact h1
      · exact h2 y hy
    · rw [argminAux, if_neg hx]
      obtain ⟨h1, h2⟩ := ih best bi (i + 1)
      refine ⟨h1, ?_⟩
      intro y hy
      rcases List.mem_cons.mp hy with rfl | hy
      · exact le_trans h1 (not_lt.mp hx)
      · exact h2 y hy

theorem npArgmin_getD_min {α : Type} [LinearOrder α] (l : List α) (m : Nat) (d : α)
    (h : npArgmin l = some m) : ∀ y ∈ l, l.getD m d ≤ y := by
  cases l with
  | nil => simp [npArgmin] at h
  | cons x xs =>
    simp only [npArgmin, Option.some.injEq] at h
    have hval : (x :: xs).getD m d = (argminAux xs x 0 1).1 := by
      rcases argminAux_idx xs x 0 1 with h2 | ⟨j, hj, h2⟩
      · rw [h2] at h ⊢
        simp only at h
        subst h
        simp [h2]
      · rw [h2] at h
        simp only at h
        subst h
        rw [h2]
        simp only
        rw [getD_eq_get _ _ _ (by simp; omega)]
        simp only [List.get_eq_getElem]
        have : 1 + j = j + 1 := by omega
        simp [this]
    rw [hval]
    intro y hy
    obtain ⟨h1, h2⟩ := argminAux_le xs x 0 1
    rcases List.mem_cons.mp hy with rfl | hy
    · exact h1
    · exact h2 y hy

theorem scanCosine_sentinel_count (q : List ℚ) :
    ∀ (fs : List (List ℚ)) (i : Nat) (sims : List ℚ) (idxs : List ℤ)
      (sims' : List ℚ) (idxs' : List ℤ),
      sims.length = idxs.length →
      fs.countP (simGtNegOne q) ≤ sims.countP (fun x => decide (x = -1)) →
      (∀ x ∈ sims, -1 ≤ x) →
      (∀ (t : Nat) (ht : t < sims.length) (ht2 : t < idxs.length),
        sims.get ⟨t, ht⟩ = -1 → idxs.get ⟨t, ht2⟩ = -1) →
      scanCosine q fs i sims idxs = .ok (sims', idxs') →
      sims'.countP (fun x => decide (x = -1)) + fs.countP (simGtNegOne q)
          = sims.countP (fun x => decide (x = -1))
        ∧ (∀ (t : Nat) (ht : t < sims'.length) (ht2 : t < idxs'.length),
            sims'.get ⟨t, ht⟩ = -1 → idxs'.get ⟨t, ht2⟩ = -1) := by
  intro fs
  induction fs with
  | nil =>
    intro i sims idxs sims' idxs' _ _ _ hpair h
    simp only [scanCosine] at h
    cases h
    exact ⟨by simp, hpair⟩
  | cons f fs ih =>
    intro i sims idxs sims' idxs' hlen hcnt hge hpair h
    rw [List.countP_cons] at hcnt
    simp only [scanCosine] at h
    cases hdot : npDot f q with
    | error e => simp only [hdot] at h; cases h
    | ok s =>
      simp only [hdot] at h
      have hsim : simGtNegOne q f = decide (-1 < s) := by
        unfold simGtNegOne
        rw [hdot]
      by_cases h1 : -1.01 ≤ s
      · rw [if_pos h1] at h
        by_cases h2 : s ≤ 1.01
        · rw [if_pos h2] at h
          cases hmin : npArgmin sims with
          | none => simp only [hmin] at h; cases h
          | some m =>
            simp only [hmin] at h
            have hm : m < sims.length := npArgmin_lt_length sims m hmin
            by_cases hgt : -1 < s
            · have hcnt1 : fs.countP (simGtNegOne q) + 1
                  ≤ sims.countP (fun x => decide (x = -1)) := by
                rw [hsim] at hcnt
                simpa [hgt] using hcnt
              have hmem : (-1 : ℚ) ∈ sims := by
                have hpos : 0 < sims.countP (fun x => decide (x = -1)) := by omega
                obtain ⟨a, ha, hpa⟩ := List.countP_pos_iff.mp hpos
                have : a = -1 := by simpa using hpa
                rwa [this] at ha
              have hmin_val : sims.getD m 0 = -1 := by
                have hle2 := npArgmin_getD_min sims m 0 hmin (-1) hmem
                have hge2 : -1 ≤ sims.getD m 0 := hge _ (getD_mem sims m 0 hm)
                linarith
              have hlt : sims.getD m 0 < s := by
                rw [hmin_val]
                exact hgt
              rw [if_pos hlt] at h
              have hget_val : sims.get ⟨m, hm⟩ = -1 := by
                rw [← getD_eq_get _ _ (0 : ℚ) hm]
                exact hmin_val
              have hset : (sims.set m s).countP (fun x => decide (x = -1)) + 1
                  = sims.countP (fun x => decide (x = -1)) := by
                apply countP_set_succ
                · exact hm
                · rw [getD_eq_get _ _ s hm, hget_val]
                  simp
                · simp only [decide_eq_false_iff_not]
                  intro heq
                  rw [heq] at hgt
                  exact lt_irrefl _ hgt
              have hlen2 : (sims.set m s).length = (idxs.set m (i : ℤ)).length := by
                simpa using hlen
              have hcnt2 : fs.countP (simGtNegOne q)
                  ≤ (sims.set m s).countP (fun x => decide (x = -1)) := by
                omega
              have hge2 : ∀ x ∈ sims.set m s, -1 ≤ x := by
                intro x hx
                rcases List.mem_or_eq_of_mem_set hx with hx | rfl
                · exact hge x hx
                · exact le_of_lt hgt
              have hpair2 : ∀ (t : Nat) (ht : t < (sims.set m s).length)
                  (ht2 : t < (idxs.set m (i : ℤ)).length),
                  (sims.set m s).get ⟨t, ht⟩ = -1 →
                  (idxs.set m (i : ℤ)).get ⟨t, ht2⟩ = -1 := by
                intro t ht ht2 hneg
                have ht' : t < sims.length := by simpa using ht
                have ht2' : t < idxs.length := by simpa using ht2
                by_cases htm : t = m
                · subst htm
                  simp only [List.get_eq_getElem] at hneg
                  rw [List.getElem_set_self _] at hneg
                  rw [hneg] at hgt
                  exact absurd hgt (lt_irrefl _)
                · simp only [List.get_eq_getElem] at hneg ⊢
                  rw [List.getElem_set_ne (fun hh => htm hh.symm) _] at hneg
                  rw [List.getElem_set_ne (fun hh => htm hh.symm) _]
                  exact hpair t ht' ht2' (by simpa using hneg)
              obtain ⟨hc, hp⟩ := ih (i + 1) (sims.set m s) (idxs.set m (i : ℤ))
                sims' idxs' hlen2 hcnt2 hge2 hpair2 h
              refine ⟨?_, hp⟩
              rw [List.countP_cons, hsim]
              simp [hgt]
              omega
            · have hnlt : ¬ sims.getD m 0 < s := by
                have hge2 : -1 ≤ sims.getD m 0 := hge _ (getD_mem sims m 0 hm)
                have hs1 : s ≤ -1 := not_lt.mp hgt
                exact not_lt.mpr (le_trans hs1 hge2)
              rw [if_neg hnlt] at h
              have hcnt2 : fs.countP (simGtNegOne q)
                  ≤ sims.countP (fun x => decide (x = -1)) := by
                omega
              obtain ⟨hc, hp⟩ := ih (i + 1) sims idxs sims' idxs' hlen hcnt2 hge hpair h
              refine ⟨?_, hp⟩
              rw [List.countP_cons, hsim]
              simp [hgt]
              omega
        · rw [if_neg h2] at h; cases h
      · rw [if_neg h1] at h; cases h


theorem scanEuclidean_lengths (q : List ℚ) :
    ∀ (fs : List (List ℚ)) (i : Nat) (dists : List (WithTop ℚ)) (idxs : List ℤ)
      (dists' : List (WithTop ℚ)) (idxs' : List ℤ),
      scanEuclidean q fs i dists idxs = .ok (dists', idxs') →
      dists'.length = dists.length ∧ idxs'.length = idxs.length := by
  intro fs
  induction fs with
  | nil =>
    intro i dists idxs dists' idxs' h
    simp only [scanEuclidean] at h
    cases h
    exact ⟨rfl, rfl⟩
  | cons f fs ih =>
    intro i dists idxs dists' idxs' h
    simp only [scanEuclidean] at h
    cases hsub : npSub f q with
    | error e => simp only [hsub] at h; cases h
    | ok d =>
      simp only [hsub] at h
      cases hmax : npArgmax dists with
      | none => simp only [hmax] at h; cases h
      | some m =>
        simp only [hmax] at h
        by_cases h3 : ((l2norm d : ℚ) : WithTop ℚ) < dists.getD m ⊤
        · rw [if_pos h3] at h
          have := ih (i + 1) (dists.set m ((l2norm d : ℚ) : WithTop ℚ)) (idxs.set m (i : ℤ))
            dists' idxs' h
          simpa using this
        · rw [if_neg h3] at h
          exact ih (i + 1) dists idxs dists' idxs' h

theorem scanEuclidean_nonneg (q : List ℚ) :
    ∀ (fs : List (List ℚ)) (i : Nat) (dists : List (WithTop ℚ)) (idxs : List ℤ)
      (dists' : List (WithTop ℚ)) (idxs' : List ℤ),
      (∀ x ∈ dists, 0 ≤ x) →
      scanEuclidean q fs i dists idxs = .ok (dists', idxs') →
      ∀ x ∈ dists', 0 ≤ x := by
  intro fs
  induction fs with
  | nil =>
    intro i dists idxs dists' idxs' hb h
    simp only [scanEuclidean] at h
    cases h
    exact hb
  | cons f fs ih =>
    intro i dists idxs dists' idxs' hb h
    simp only [scanEuclidean] at h
    cases hsub : npSub f q with
    | error e => simp only [hsub] at h; cases h
    | ok d =>
      simp only [hsub] at h
      cases hmax : npArgmax dists with
      | none => simp only [hmax] at h; cases h
      | some m =>
        simp only [hmax] at h
        by_cases h3 : ((l2norm d : ℚ) : WithTop ℚ) < dists.getD m ⊤
        · rw [if_pos h3] at h
          refine ih (i + 1) (dists.set m ((l2norm d : ℚ) : WithTop ℚ)) (idxs.set m (i : ℤ))
            dists' idxs' ?_ h
          intro x hx
          rcases List.mem_or_eq_of_mem_set hx with hx | rfl
          · exact hb x hx
          · rw [← WithTop.coe_zero, WithTop.coe_le_coe]
            exact l2norm_nonneg d
        · rw [if_neg h3] at h
          exact ih (i + 1) dists idxs dists' idxs' hb h

theorem scanEuclidean_top_inv (q : List ℚ) :
    ∀ (fs : List (List ℚ)) (i : Nat) (dists : List (WithTop ℚ)) (idxs : List ℤ)
      (dists' : List (WithTop ℚ)) (idxs' : List ℤ),
      dists.length = idxs.length →
      fs.length ≤ dists.countP (fun x => decide (x = ⊤)) →
      (∀ (t : Nat) (ht : t < dists.length) (ht2 : t < idxs.length),
        dists.get ⟨t, ht⟩ = ⊤ → idxs.get ⟨t, ht2⟩ = -1) →
      scanEuclidean q fs i dists idxs = .ok (dists', idxs') →
      dists'.countP (fun x => decide (x = ⊤)) + fs.length = dists.countP (fun x => decide (x = ⊤))
        ∧ (∀ (t : Nat) (ht : t < dists'.length) (ht2 : t < idxs'.length),
            dists'.get ⟨t, ht⟩ = ⊤ → idxs'.get ⟨t, ht2⟩ = -1) := by
  intro fs
  induction fs with
  | nil =>
    intro i dists idxs dists' idxs' _ _ hpair h
    simp only [scanEuclidean] at h
    cases h
    exact ⟨by simp, hpair⟩
  | cons f fs ih =>
    intro i dists idxs dists' idxs' hlen hcnt hpair h
    simp only [List.length_cons] at hcnt
    simp only [scanEuclidean] at h
    cases hsub : npSub f q with
    | error e => simp only [hsub] at h; cases h
    | ok d =>
      simp only [hsub] at h
      cases hmax : npArgmax dists with
      | none => simp only [hmax] at h; cases h
      | some m =>
        simp only [hmax] at h
        have hm : m < dists.length := npArgmax_lt_length dists m hmax
        have htopmem : (⊤ : WithTop ℚ) ∈ dists := by
          have hpos : 0 < dists.countP (fun x => decide (x = ⊤)) := by
            have : 0 < fs.length + 1 := Nat.succ_pos _
            omega
          obtain ⟨a, ha, hpa⟩ := List.countP_pos_iff.mp hpos
          have : a = ⊤ := by simpa using hpa
          rwa [this] at ha
        have hgm : dists.getD m ⊤ = ⊤ := by
          have := npArgmax_getD_max dists m ⊤ hmax ⊤ htopmem
          exact top_le_iff.mp this
        have h3 : ((l2norm d : ℚ) : WithTop ℚ) < dists.getD m ⊤ := by
          rw [hgm]; exact WithTop.coe_lt_top _
        rw [if_pos h3] at h
        have hset : (dists.set m ((l2norm d : ℚ) : WithTop ℚ)).countP (fun x => decide (x = ⊤)) + 1
            = dists.countP (fun x => decide (x = ⊤)) := by
          apply countP_set_succ
          · exact hm
          · rw [getD_eq_get _ _ _ hm] at hgm
            rw [getD_eq_get _ _ _ hm, hgm]
            simp
          · simp
        have hlen2 : (dists.set m ((l2norm d : ℚ) : WithTop ℚ)).length
            = (idxs.set m (i : ℤ)).length := by
          simpa using hlen
        have hcnt2 : fs.length ≤ (dists.set m ((l2norm d : ℚ) : WithTop ℚ)).countP
            (fun x => decide (x = ⊤)) := by
          omega
        have hpair2 : ∀ (t : Nat) (ht : t < (dists.set m ((l2norm d : ℚ) : WithTop ℚ)).length)
            (ht2 : t < (idxs.set m (i : ℤ)).length),
            (dists.set m ((l2norm d : ℚ) : WithTop ℚ)).get ⟨t, ht⟩ = ⊤ →
            (idxs.set m (i : ℤ)).get ⟨t, ht2⟩ = -1 := by
          intro t ht ht2 htop
          have ht' : t < dists.length := by simpa using ht
          have ht2' : t < idxs.length := by simpa using ht2
          by_cases htm : t = m
          · subst htm
            simp only [List.get_eq_getElem] at htop
            rw [List.getElem_set_self _] at htop
            exact absurd htop (by simp)
          · simp only [List.get_eq_getElem] at htop ⊢
            rw [List.getElem_set_ne (fun hh => htm hh.symm) _] at htop
            rw [List.getElem_set_ne (fun hh => htm hh.symm) _]
            exact hpair t ht' ht2' (by simpa using htop)
        obtain ⟨hc, hp⟩ := ih (i + 1) (dists.set m ((l2norm d : ℚ) : WithTop ℚ))
          (idxs.set m (i : ℤ)) dists' idxs' hlen2 hcnt2 hpair2 h
        constructor
        · simp only [List.length_cons]
          omega
        · exact hp

theorem countKeyFrom_eq_filter (kfs : List ℤ) :
    ∀ (n : Nat) (c : ℤ),
      countKeyFrom kfs c n = ((List.range n).filter (fun t : Nat => decide ((c + (t : ℤ)) ∈ kfs))).length := by
  intro n
  induction n with
  | zero => intro c; rfl
  | succ n ih =>
    intro c
    rw [countKeyFrom, List.range_succ_eq_map]
    rw [List.filter_cons]
    have hcast : (decide ((c + ((0 : Nat) : ℤ)) ∈ kfs)) = decide (c ∈ kfs) := by
      norm_num
    rw [hcast]
    have hmapped : (List.filter (fun t : Nat => decide ((c + (t : ℤ)) ∈ kfs)) ((List.range n).map Nat.succ))
        = ((List.range n).filter ((fun t : Nat => decide ((c + (t : ℤ)) ∈ kfs)) ∘ Nat.succ)).map Nat.succ :=
      List.filter_map Nat.succ (List.range n)
    have hfun : ((fun t : Nat => decide ((c + (t : ℤ)) ∈ kfs)) ∘ Nat.succ)
        = (fun t : Nat => decide (((c + 1) + (t : ℤ)) ∈ kfs)) := by
      funext t
      simp only [Function.comp]
      congr 1
      · push_cast
        ring_nf
    rw [hmapped, hfun, ih (c + 1)]
    by_cases hc : c ∈ kfs
    · rw [if_pos hc, if_pos (by simpa using hc)]
      simp only [List.length_cons, List.length_map]
      omega
    · rw [if_neg hc, if_neg (by simpa using hc)]
      simp only [List.length_map]
      omega

theorem countKeyFrom_zero_eq_hits (kfs : List ℤ) (n : Nat) :
    countKeyFrom kfs 0 n = keyFrameHits kfs n := by
  rw [countKeyFrom_eq_filter, keyFrameHits]
  congr 1
  apply List.filter_congr
  intro t _
  norm_num

theorem processLines_align (name caption : String) (kfs : List ℤ) :
    ∀ (lines : List (List ℚ)) (count : ℤ) (dm dm' : DataManager) (e : Option PyError),
      corpusAligned dm →
      processLines name caption kfs dm lines count = (dm', e) →
      (e ≠ some .missingFramePath → corpusAligned dm') ∧
      (e = some .missingFramePath →
        dm'.features.length = dm'.captions.length ∧
        dm'.features.length = dm'.frame_paths.length + 1) := by
  intro lines
  induction lines with
  | nil =>
    intro count dm dm' e ha h
    simp only [processLines] at h
    cases h
    exact ⟨fun _ => ha, fun hc => by cases hc⟩
  | cons line rest ih =>
    intro count dm dm' e ha h
    simp only [processLines] at h
    by_cases hk : count ∈ kfs
    · rw [if_pos hk] at h
      cases hl : alookup (name, count) ((({ dm with
          features := dm.features ++ [line],
          captions := dm.captions ++ [caption] } : DataManager)).video_seg_frame_path) with
      | none =>
        simp only [hl] at h
        cases h
        constructor
        · intro hne; exact absurd rfl hne
        · intro _
          obtain ⟨h1, h2⟩ := ha
          constructor
          · simp [h1]
          · simp [h1, h2]
      | some p =>
        simp only [hl] at h
        refine ih (count + 1) _ dm' e ?_ h
        obtain ⟨h1, h2⟩ := ha
        constructor
        · simp [h1]
        · simp [h1, h2]
    · rw [if_neg hk] at h
      exact ih (count + 1) dm dm' e ha h

theorem processLines_stores (name caption : String) (kfs : List ℤ) :
    ∀ (lines : List (List ℚ)) (count : ℤ) (dm : DataManager),
      (processLines name caption kfs dm lines count).1.video_seg_id_to_caption
          = dm.video_seg_id_to_caption ∧
        (processLines name caption kfs dm lines count).1.key_frames = dm.key_frames ∧
        (processLines name caption kfs dm lines count).1.video_seg_frame_path
          = dm.video_seg_frame_path := by
  intro lines
  induction lines with
  | nil => intro count dm; exact ⟨rfl, rfl, rfl⟩
  | cons line rest ih =>
    intro count dm
    simp only [processLines]
    by_cases hk : count ∈ kfs
    · rw [if_pos hk]
      cases hl : alookup (name, count) ((({ dm with
          features := dm.features ++ [line],
          captions := dm.captions ++ [caption] } : DataManager)).video_seg_frame_path) with
      | none => exact ⟨rfl, rfl, rfl⟩
      | some p => simpa using ih (count + 1) _
    · rw [if_neg hk]
      exact ih (count + 1) dm

theorem processLines_none_growth (name caption : String) (kfs : List ℤ) :
    ∀ (lines : List (List ℚ)) (count : ℤ) (dm dm' : DataManager),
      processLines name caption kfs dm lines count = (dm', none) →
      dm'.features.length = dm.features.length + countKeyFrom kfs count lines.length := by
  intro lines
  induction lines with
  | nil =>
    intro count dm dm' h
    simp only [processLines] at h
    cases h
    simp [countKeyFrom]
  | cons line rest ih =>
    intro count dm dm' h
    simp only [processLines] at h
    by_cases hk : count ∈ kfs
    · rw [if_pos hk] at h
      cases hl : alookup (name, count) ((({ dm with
          features := dm.features ++ [line],
          captions := dm.captions ++ [caption] } : DataManager)).video_seg_frame_path) with
      | none => simp only [hl] at h; cases h
      | some p =>
        simp only [hl] at h
        have := ih (count + 1) _ dm' h
        simp only [List.length_append, List.length_cons] at this ⊢
        rw [this]
        simp only [countKeyFrom, if_pos hk, List.length_cons]
        simp
        omega
    · rw [if_neg hk] at h
      have := ih (count + 1) dm dm' h
      rw [this]
      simp only [countKeyFrom, if_neg hk, List.length_cons]
      omega

theorem processFile_align (dm dm' : DataManager) (fname : String) (lines : List (List ℚ))
    (e : Option PyError) (ha : corpusAligned dm)
    (h : processFile dm fname lines = (dm', e)) :
    (e ≠ some .missingFramePath → corpusAligned dm') ∧
    (e = some .missingFramePath →
      dm'.features.length = dm'.captions.length ∧
      dm'.features.length = dm'.frame_paths.length + 1) := by
  unfold processFile at h
  split at h
  · cases h
    exact ⟨fun _ => ha, fun hc => by cases hc⟩
  · split at h
    · cases h
      exact ⟨fun _ => ha, fun hc => by cases hc⟩
    · split at h
      · cases h
        exact ⟨fun _ => ha, fun hcc => by cases hcc⟩
      · split at h
        · cases h
          exact ⟨fun _ => ha, fun hcc => by cases hcc⟩
        · exact processLines_align _ _ _ lines 0
            { dm with video_seg_feature_path :=
                (fname.dropRight 4, fname) :: dm.video_seg_feature_path }
            dm' e ha h

theorem processFile_stores (dm : DataManager) (fname : String) (lines : List (List ℚ)) :
    (processFile dm fname lines).1.video_seg_id_to_caption = dm.video_seg_id_to_caption ∧
    (processFile dm fname lines).1.key_frames = dm.key_frames := by
  unfold processFile
  split
  · exact ⟨rfl, rfl⟩
  · split
    · exact ⟨rfl, rfl⟩
    · next sid _ =>
      split
      · exact ⟨rfl, rfl⟩
      · next caption _ =>
        split
        · exact ⟨rfl, rfl⟩
        · next kfs _ =>
          have := processLines_stores (fname.dropRight 4) caption kfs lines 0
            { dm with video_seg_feature_path :=
                (fname.dropRight 4, fname) :: dm.video_seg_feature_path }
          exact ⟨this.1, this.2.1⟩

theorem processFile_none_growth (dm dm' : DataManager) (fname : String) (lines : List (List ℚ))
    (h : processFile dm fname lines = (dm', none)) :
    dm'.features.length = dm.features.length +
      keyFrameHits ((alookup (fname.dropRight 4) dm.key_frames).getD []) lines.length := by
  unfold processFile at h
  split at h
  · cases h
  · split at h
    · cases h
    · next sid _ =>
      split at h
      · cases h
      · next caption _ =>
        split at h
        · cases h
        · next kfs hk =>
          have := processLines_none_growth (fname.dropRight 4) caption kfs lines 0 _ dm' h
          have hk2 : alookup (fname.dropRight 4) dm.key_frames = some kfs := by
            simpa using hk
          rw [countKeyFrom_zero_eq_hits] at this
          rw [hk2]
          simpa using this

theorem processFile_missingCaption (dm : DataManager) (fname : String) (lines : List (List ℚ))
    (sid : Nat) (h14 : ¬ (fname.dropRight 4).length < 14)
    (hp : pyParseNat ((fname.dropRight 4).drop 13) = some sid)
    (hc : alookup ((fname.dropRight 4).take 13, sid) dm.video_seg_id_to_caption = none) :
    processFile dm fname lines =
      ({ dm with video_seg_feature_path :=
          (fname.dropRight 4, fname) :: dm.video_seg_feature_path }, some .missingCaption) := by
  unfold processFile
  rw [if_neg h14]
  simp only [hp, hc]

theorem load_features_align :
    ∀ (files : List (String × List (List ℚ))) (dm dm' : DataManager) (e : Option PyError),
      corpusAligned dm →
      load_features dm files = (dm', e) →
      (e ≠ some .missingFramePath → corpusAligned dm') ∧
      (e = some .missingFramePath →
        dm'.features.length = dm'.captions.length ∧
        dm'.features.length = dm'.frame_paths.length + 1) := by
  intro files
  induction files with
  | nil =>
    intro dm dm' e ha h
    simp only [load_features] at h
    cases h
    exact ⟨fun _ => ha, fun hc => by cases hc⟩
  | cons file rest ih =>
    intro dm dm' e ha h
    obtain ⟨fname, lines⟩ := file
    simp only [load_features] at h
    by_cases ht : strEndsWith fname ".txt"
    · rw [if_pos ht] at h
      cases hpf : processFile dm fname lines with
      | mk dm1 e1 =>
        cases e1 with
        | none =>
          simp only [hpf] at h
          have ha1 := (processFile_align dm dm1 fname lines none ha hpf).1 (by simp)
          exact ih dm1 dm' e ha1 h
        | some e2 =>
          simp only [hpf] at h
          cases h
          exact processFile_align dm dm' fname lines (some e2) ha hpf
    · rw [if_neg ht] at h
      exact ih dm dm' e ha h

theorem load_features_stores :
    ∀ (files : List (String × List (List ℚ))) (dm : DataManager),
      (load_features dm files).1.video_seg_id_to_caption = dm.video_seg_id_to_caption ∧
      (load_features dm files).1.key_frames = dm.key_frames := by
  intro files
  induction files with
  | nil => intro dm; exact ⟨rfl, rfl⟩
  | cons file rest ih =>
    intro dm
    obtain ⟨fname, lines⟩ := file
    simp only [load_features]
    by_cases ht : strEndsWith fname ".txt"
    · rw [if_pos ht]
      cases hpf : processFile dm fname lines with
      | mk dm1 e1 =>
        have hst := processFile_stores dm fname lines
        rw [hpf] at hst
        cases e1 with
        | none =>
          have := ih dm1
          exact ⟨this.1.trans hst.1, this.2.trans hst.2⟩
        | some e2 => exact hst
    · rw [if_neg ht]
      exact ih dm

theorem load_features_none_growth :
    ∀ (files : List (String × List (List ℚ))) (dm dm' : DataManager),
      load_features dm files = (dm', none) →
      dm'.features.length = dm.features.length +
        (files.map (fun f => if strEndsWith f.1 ".txt" = true then
          keyFrameHits ((alookup (f.1.dropRight 4) dm.key_frames).getD []) f.2.length
          else 0)).sum := by
  intro files
  induction files with
  | nil =>
    intro dm dm' h
    simp only [load_features] at h
    cases h
    simp
  | cons file rest ih =>
    intro dm dm' h
    obtain ⟨fname, lines⟩ := file
    simp only [load_features] at h
    by_cases ht : strEndsWith fname ".txt"
    · rw [if_pos ht] at h
      cases hpf : processFile dm fname lines with
      | mk dm1 e1 =>
        cases e1 with
        | none =>
          simp only [hpf] at h
          have h1 := processFile_none_growth dm dm1 fname lines hpf
          have h2 := ih dm1 dm' h
          have hkf : dm1.key_frames = dm.key_frames := by
            have := processFile_stores dm fname lines
            rw [hpf] at this
            exact this.2
          rw [hkf] at h2
          simp only [List.map_cons, List.sum_cons]
          rw [if_pos ht, h2, h1]
          omega
        | some e2 => simp only [hpf] at h; cases h
    · rw [if_neg ht] at h
      have := ih dm dm' h
      rw [this]
      simp [ht]

theorem load_features_append_ok :
    ∀ (pre post : List (String × List (List ℚ))) (dm dm1 : DataManager),
      load_features dm pre = (dm1, none) →
      load_features dm (pre ++ post) = load_features dm1 post := by
  intro pre
  induction pre with
  | nil =>
    intro post dm dm1 h
    simp only [load_features] at h
    cases h
    rfl
  | cons file rest ih =>
    intro post dm dm1 h
    obtain ⟨fname, lines⟩ := file
    simp only [load_features, List.cons_append] at h ⊢
    by_cases ht : strEndsWith fname ".txt"
    · rw [if_pos ht] at h ⊢
      cases hpf : processFile dm fname lines with
      | mk dm2 e2 =>
        cases e2 with
        | none =>
          simp only [hpf] at h ⊢
          exact ih post dm2 dm1 h
        | some e3 => simp only [hpf] at h; cases h
    · rw [if_neg ht] at h ⊢
      exact ih post dm dm1 h

theorem processFramePathDir_corpus :
    ∀ (files : List String) (root : String) (dm : DataManager),
      (processFramePathDir dm files root).1.features = dm.features ∧
      (processFramePathDir dm files root).1.captions = dm.captions ∧
      (processFramePathDir dm files root).1.frame_paths = dm.frame_paths := by
  intro files
  induction files with
  | nil => intro root dm; exact ⟨rfl, rfl, rfl⟩
  | cons file rest ih =>
    intro root dm
    simp only [processFramePathDir]
    by_cases hj : strEndsWith file ".jpg"
    · rw [if_pos hj]
      cases hp : pyParseNat ((file.splitOn ".").headD "") with
      | none => exact ⟨rfl, rfl, rfl⟩
      | some n => exact ih root _
    · rw [if_neg hj]
      exact ih root dm

theorem load_frame_path_info_corpus :
    ∀ (dirs : List (String × List String)) (dm : DataManager),
      (load_frame_path_info dm dirs).1.features = dm.features ∧
      (load_frame_path_info dm dirs).1.captions = dm.captions ∧
      (load_frame_path_info dm dirs).1.frame_paths = dm.frame_paths := by
  intro dirs
  induction dirs with
  | nil => intro dm; exact ⟨rfl, rfl, rfl⟩
  | cons dir rest ih =>
    intro dm
    obtain ⟨root, files⟩ := dir
    simp only [load_frame_path_info]
    cases hpd : processFramePathDir dm files root with
    | mk dm1 e1 =>
      have hc := processFramePathDir_corpus files root dm
      rw [hpd] at hc
      cases e1 with
      | none =>
        have := ih dm1
        exact ⟨this.1.trans hc.1, this.2.1.trans hc.2.1, this.2.2.trans hc.2.2⟩
      | some e2 => exact hc

theorem insertCaptions_corpus (video_name : String) :
    ∀ (sentences : List String) (seg_id : Nat) (dm : DataManager),
      (insertCaptions video_name dm sentences seg_id).features = dm.features ∧
      (insertCaptions video_name dm sentences seg_id).captions = dm.captions ∧
      (insertCaptions video_name dm sentences seg_id).frame_paths = dm.frame_paths := by
  intro sentences
  induction sentences with
  | nil => intro seg_id dm; exact ⟨rfl, rfl, rfl⟩
  | cons s rest ih =>
    intro seg_id dm
    simp only [insertCaptions]
    exact ih (seg_id + 1) _

theorem load_captions_corpus :
    ∀ (inp : List (String × List String)) (dm : DataManager),
      (load_captions dm inp).features = dm.features ∧
      (load_captions dm inp).captions = dm.captions ∧
      (load_captions dm inp).frame_paths = dm.frame_paths := by
  intro inp
  induction inp with
  | nil => intro dm; exact ⟨rfl, rfl, rfl⟩
  | cons v rest ih =>
    intro dm
    obtain ⟨video_name, sentences⟩ := v
    simp only [load_captions]
    have h1 := insertCaptions_corpus video_name sentences 0
      { dm with raw_captions := dm.raw_captions ++ sentences }
    have h2 := ih (insertCaptions video_name
      { dm with raw_captions := dm.raw_captions ++ sentences } sentences 0)
    exact ⟨h2.1.trans h1.1, h2.2.1.trans h1.2.1, h2.2.2.trans h1.2.2⟩

theorem load_key_frame_information_corpus :
    ∀ (inp : List (String × List ℤ)) (dm : DataManager),
      (load_key_frame_information dm inp).1.features = dm.features ∧
      (load_key_frame_information dm inp).1.captions = dm.captions ∧
      (load_key_frame_information dm inp).1.frame_paths = dm.frame_paths := by
  intro inp
  induction inp with
  | nil => intro dm; exact ⟨rfl, rfl, rfl⟩
  | cons f rest ih =>
    intro dm
    obtain ⟨file, data⟩ := f
    simp only [load_key_frame_information]
    by_cases ht : strEndsWith file ".txt"
    · rw [if_pos ht]
      by_cases h14 : (file.dropRight 4).length < 14
      · rw [if_pos h14]
        exact ⟨rfl, rfl, rfl⟩
      · rw [if_neg h14]
        exact ih _
    · rw [if_neg ht]
      exact ih dm

theorem normalize_features_lengths (dm : DataManager) :
    (normalize_features dm).features.length = dm.features.length ∧
    (normalize_features dm).captions = dm.captions ∧
    (normalize_features dm).frame_paths = dm.frame_paths := by
  unfold normalize_features
  exact ⟨List.length_map _ _, rfl, rfl⟩

/-- C7: for every segment whose identifier decomposes (13-character
prefix, numeric suffix) to a (video, segment index) pair absent from
the Caption Store, corpus assembly fails with MissingCaption (the
`KeyError` raised by the caption-dictionary lookup) as soon as that
segment's file is processed, regardless of the remaining files, and
the corpus sequences receive no record from that segment: it is never
silently skipped. -/
theorem C7_missing_caption_fails (dm dm1 : DataManager)
    (pre : List (String × List (List ℚ))) (fname : String) (lines : List (List ℚ))
    (rest : List (String × List (List ℚ))) (sid : Nat)
    (hpre : load_features dm pre = (dm1, none))
    (ht : strEndsWith fname ".txt" = true)
    (h14 : ¬ (fname.dropRight 4).length < 14)
    (hp : pyParseNat ((fname.dropRight 4).drop 13) = some sid)
    (hc : alookup ((fname.dropRight 4).take 13, sid) dm.video_seg_id_to_caption = none) :
    (load_features dm (pre ++ (fname, lines) :: rest)).2 = some .missingCaption ∧
    (load_features dm (pre ++ (fname, lines) :: rest)).1.features = dm1.features ∧
    (load_features dm (pre ++ (fname, lines) :: rest)).1.captions = dm1.captions := by
  rw [load_features_append_ok pre ((fname, lines) :: rest) dm dm1 hpre]
  have hcdict : dm1.video_seg_id_to_caption = dm.video_seg_id_to_caption := by
    have := load_features_stores pre dm
    rw [hpre] at this
    exact this.1
  unfold load_features
  rw [if_pos ht]
  rw [processFile_missingCaption dm1 fname lines sid h14 hp (by rw [hcdict]; exact hc)]
  exact ⟨rfl, rfl, rfl⟩

/-- Witness for C7 at a concrete input: a single feature file whose
segment has no caption entry makes assembly fail with MissingCaption
while the corpus stays empty. -/
theorem C7_missing_caption_fails_witness :
    (load_features DataManager.init [("abcdefghijklm0.txt", [[1]])]).2 = some .missingCaption ∧
    (load_features DataManager.init [("abcdefghijklm0.txt", [[1]])]).1.features
        = DataManager.init.features ∧
    (load_features DataManager.init [("abcdefghijklm0.txt", [[1]])]).1.captions
        = DataManager.init.captions :=
  C7_missing_caption_fails DataManager.init DataManager.init [] "abcdefghijklm0.txt" [[1]] [] 0
    rfl (by decide) (by decide) (by decide) rfl

/-- C8: when corpus assembly succeeds, the corpus grows by the sum,
over all processed `.txt` files, of the number of row indices of that
file that belong to the segment's key-frame set — the size of
`KeyFrameSet ∩ {frames with an extracted vector}`; key-frame indices
beyond the file's rows contribute nothing and raise no error. -/
theorem C8_corpus_size_sum (dm dm' : DataManager) (files : List (String × List (List ℚ)))
    (h : load_features dm files = (dm', none)) :
    dm'.features.length = dm.features.length +
      (files.map (fun f => if strEndsWith f.1 ".txt" = true then
        keyFrameHits ((alookup (f.1.dropRight 4) dm.key_frames).getD []) f.2.length
        else 0)).sum :=
  load_features_none_growth files dm dm' h

/-- Witness for C8 at the spec's scenario: key-frame set `{0, 2}` but
only frame 0 has an extracted row, so exactly one record is produced
and no error is raised. -/
theorem C8_corpus_size_sum_witness :
    dmC8out.features.length = dmC8.features.length +
      (([("abcdefghijklm0.txt", [[1]])] : List (String × List (List ℚ))).map
        (fun f => if strEndsWith f.1 ".txt" = true then
          keyFrameHits ((alookup (f.1.dropRight 4) dmC8.key_frames).getD []) f.2.length
          else 0)).sum :=
  C8_corpus_size_sum dmC8 dmC8out [("abcdefghijklm0.txt", [[1]])] (by decide)

/-- C9: normalizing an already unit-norm corpus is a no-op, and hence
normalizing twice is the same as normalizing once: for every corpus
whose vectors have sum of squares exactly 1, `normalize_features`
returns the state unchanged. -/
theorem C9_normalize_idempotent (dm : DataManager)
    (h : ∀ v ∈ dm.features, sumSq v = 1) :
    normalize_features dm = dm ∧
      normalize_features (normalize_features dm) = normalize_features dm := by
  have hmap : dm.features.map l2normalize = dm.features := by
    have := List.map_congr_left (fun v hv => l2normalize_of_sumSq_one (h v hv))
    rw [this]
    simp
  have h1 : normalize_features dm = dm := by
    unfold normalize_features
    rw [hmap]
  exact ⟨h1, by rw [h1]; exact h1⟩

/-- Witness for C9 on a concrete already-normalized corpus. -/
theorem C9_normalize_idempotent_witness :
    normalize_features dmC9 = dmC9 ∧
      normalize_features (normalize_features dmC9) = normalize_features dmC9 :=
  C9_normalize_idempotent dmC9 (by
    intro v hv
    simp only [dmC9, List.mem_cons, List.not_mem_nil, or_false] at hv
    rcases hv with rfl | rfl
    · norm_num [sumSq]
    · norm_num [sumSq])

/-- C10: both query operations are pure functions of the three corpus
sequences, the query vector and k: any two states agreeing on
`features`, `captions` and `frame_paths` give identical results
(including tie order, which is fixed by the deterministic sort), and
the operations return no modified state. -/
theorem C10_queries_pure (dm1 dm2 : DataManager) (qf : List ℚ) (k : Nat)
    (hf : dm1.features = dm2.features) (hc : dm1.captions = dm2.captions)
    (hp : dm1.frame_paths = dm2.frame_paths) :
    query_knn_caption_brutal_force_cosine_similarity dm1 qf k
        = query_knn_caption_brutal_force_cosine_similarity dm2 qf k ∧
      query_knn_caption_brutal_force_euclidean_distance dm1 qf k
        = query_knn_caption_brutal_force_euclidean_distance dm2 qf k := by
  constructor
  · unfold query_knn_caption_brutal_force_cosine_similarity
    simp only [hf, hc, hp]
  · unfold query_knn_caption_brutal_force_euclidean_distance
    simp only [hf, hc, hp]

/-- Witness for C10: two states with equal corpus sequences but
different auxiliary stores give identical query results. -/
theorem C10_queries_pure_witness :
    query_knn_caption_brutal_force_cosine_similarity dmC10a [1, 0] 1
        = query_knn_caption_brutal_force_cosine_similarity dmC10b [1, 0] 1 ∧
      query_knn_caption_brutal_force_euclidean_distance dmC10a [1, 0] 1
        = query_knn_caption_brutal_force_euclidean_distance dmC10b [1, 0] 1 :=
  C10_queries_pure dmC10a dmC10b [1, 0] 1 rfl rfl rfl

/-- C1: whenever the cosine query returns on a non-empty corpus with
`1 ≤ k ≤ corpus size`, it returns exactly `k` captions, `k` frame
paths and `k` similarities, every similarity lies in `[-1.01, 1.01]`
(the working set starts at `-1.0` and every inserted score passed the
two asserts), and the similarity array is sorted non-increasing. -/
theorem C1_cosine_query_contract (dm : DataManager) (qf : List ℚ) (k : Nat)
    (hk : 1 ≤ k) (hkn : k ≤ dm.features.length)
    (caps fps : List String) (sims : List ℚ)
    (hok : query_knn_caption_brutal_force_cosine_similarity dm qf k
      = .ok (caps, fps, sims)) :
    caps.length = k ∧ fps.length = k ∧ sims.length = k ∧
      (∀ s ∈ sims, -1.01 ≤ s ∧ s ≤ 1.01) ∧ sims.Pairwise (fun a b => b ≤ a) := by
  unfold query_knn_caption_brutal_force_cosine_similarity at hok
  split at hok
  · cases hok
  · next simsS idxs hscan =>
    split at hok
    · cases hok
    · next capsV hcaps =>
      split at hok
      · cases hok
      · next fpsV hfps =>
        cases hok
        have hlen := scanCosine_lengths (l2normalize qf) dm.features 0
          (List.replicate k (-1)) (List.replicate k (-1)) simsS idxs hscan
        have hsims_len : simsS.length = k := by simpa using hlen.1
        have hidxs_len : idxs.length = k := by simpa using hlen.2
        have hord_len : ((npArgsort 0 simsS).reverse).length = k := by
          rw [List.length_reverse, npArgsort_length, hsims_len]
        refine ⟨?_, ?_, ?_, ?_, ?_⟩
        · have := mapExcept_length _ _ _ hcaps
          rw [this, List.length_map, hord_len]
        · have := mapExcept_length _ _ _ hfps
          rw [this, List.length_map, hord_len]
        · rw [List.length_map, hord_len]
        · have hb := scanCosine_bounds (l2normalize qf) dm.features 0
            (List.replicate k (-1)) (List.replicate k (-1)) simsS idxs
            (by
              intro x hx
              have := List.eq_of_mem_replicate hx
              subst this
              norm_num) hscan
          intro s hs
          obtain ⟨j, hj, rfl⟩ := List.mem_map.mp hs
          have hjlt : j < simsS.length :=
            npArgsort_mem_lt 0 simsS j (List.mem_reverse.mp hj)
          exact hb _ (getD_mem simsS j 0 hjlt)
        · have hpw := npArgsort_map_pairwise 0 simsS
          rw [List.map_reverse]
          exact List.pairwise_reverse.mpr hpw

/-- Witness for C1 on a concrete two-vector corpus with `k = 2`. -/
theorem C1_cosine_query_contract_witness :
    (["a", "b"] : List String).length = 2 ∧ (["pa", "pb"] : List String).length = 2 ∧
      ([1, 0] : List ℚ).length = 2 ∧
      (∀ s ∈ ([1, 0] : List ℚ), -1.01 ≤ s ∧ s ≤ 1.01) ∧
      ([1, 0] : List ℚ).Pairwise (fun a b => b ≤ a) :=
  C1_cosine_query_contract dmC1 [1, 0] 2 (by norm_num) (by norm_num [dmC1])
    ["a", "b"] ["pa", "pb"] [1, 0] (by
      norm_num [query_knn_caption_brutal_force_cosine_similarity, dmC1, scanCosine, npDot,
        npArgmin, argminAux, npArgsort, argLe, mapExcept, pyIndex, l2normalize, l2norm, sumSq,
        ratSqrt_one, List.insertionSort, List.orderedInsert, List.getD_cons_zero,
        List.getD_cons_succ, List.replicate])

/-- C2: whenever the Euclidean query returns on a non-empty corpus
with `1 ≤ k ≤ corpus size`, it returns exactly `k` captions, `k` frame
paths and `k` distances, every distance is nonnegative (an L2 norm, or
the `np.inf` sentinel), and the distance array is sorted
non-decreasing. -/
theorem C2_euclidean_query_contract (dm : DataManager) (qf : List ℚ) (k : Nat)
    (hk : 1 ≤ k) (hkn : k ≤ dm.features.length)
    (caps fps : List String) (dists : List (WithTop ℚ))
    (hok : query_knn_caption_brutal_force_euclidean_distance dm qf k
      = .ok (caps, fps, dists)) :
    caps.length = k ∧ fps.length = k ∧ dists.length = k ∧
      (∀ d ∈ dists, 0 ≤ d) ∧ dists.Pairwise (· ≤ ·) := by
  unfold query_knn_caption_brutal_force_euclidean_distance at hok
  split at hok
  · cases hok
  · next distsS idxs hscan =>
    split at hok
    · cases hok
    · next capsV hcaps =>
      split at hok
      · cases hok
      · next fpsV hfps =>
        cases hok
        have hlen := scanEuclidean_lengths qf dm.features 0
          (List.replicate k ⊤) (List.replicate k (-1)) distsS idxs hscan
        have hdists_len : distsS.length = k := by simpa using hlen.1
        have hord_len : (npArgsort ⊤ distsS).length = k := by
          rw [npArgsort_length, hdists_len]
        refine ⟨?_, ?_, ?_, ?_, ?_⟩
        · have := mapExcept_length _ _ _ hcaps
          rw [this, List.length_map, hord_len]
        · have := mapExcept_length _ _ _ hfps
          rw [this, List.length_map, hord_len]
        · rw [List.length_map, hord_len]
        · have hb := scanEuclidean_nonneg qf dm.features 0
            (List.replicate k ⊤) (List.replicate k (-1)) distsS idxs
            (by
              intro x hx
              have := List.eq_of_mem_replicate hx
              subst this
              exact le_top) hscan
          intro d hd
          obtain ⟨j, hj, rfl⟩ := List.mem_map.mp hd
          have hjlt : j < distsS.length := npArgsort_mem_lt ⊤ distsS j hj
          exact hb _ (getD_mem distsS j ⊤ hjlt)
        · exact npArgsort_map_pairwise ⊤ distsS

/-- Witness for C2 on a concrete two-vector corpus with `k = 2`. -/
theorem C2_euclidean_query_contract_witness :
    (["b", "a"] : List String).length = 2 ∧ (["pb", "pa"] : List String).length = 2 ∧
      ([((0 : ℚ) : WithTop ℚ), ((1 : ℚ) : WithTop ℚ)]).length = 2 ∧
      (∀ d ∈ [((0 : ℚ) : WithTop ℚ), ((1 : ℚ) : WithTop ℚ)], 0 ≤ d) ∧
      ([((0 : ℚ) : WithTop ℚ), ((1 : ℚ) : WithTop ℚ)]).Pairwise (· ≤ ·) :=
  C2_euclidean_query_contract dmC2 [0, 0] 2 (by norm_num) (by norm_num [dmC2])
    ["b", "a"] ["pb", "pa"] [((0 : ℚ) : WithTop ℚ), ((1 : ℚ) : WithTop ℚ)] (by
      norm_num [query_knn_caption_brutal_force_euclidean_distance, dmC2, scanEuclidean, npSub,
        npArgmax, argmaxAux, npArgsort, argLe, mapExcept, pyIndex, l2norm, sumSq,
        ratSqrt_one, ratSqrt_zero, List.insertionSort, List.orderedInsert, List.getD_cons_zero,
        List.getD_cons_succ, List.replicate, WithTop.coe_lt_top, WithTop.coe_lt_coe,
        WithTop.coe_eq_coe]
      decide)

/-- Counterexample to C3 as stated: a key frame with a feature row but
no frame-path entry makes `load_features` fail with MissingFramePath
while `features` and `captions` already hold one element each and
`frame_paths` holds none — the three sequences are misaligned at the
observable point the failure leaves behind. -/
theorem C3_alignment_cex :
    (load_features dmC3 [("abcdefghijklm0.txt", [[1, 2]])]).2 = some .missingFramePath ∧
    (load_features dmC3 [("abcdefghijklm0.txt", [[1, 2]])]).1.features.length = 1 ∧
    (load_features dmC3 [("abcdefghijklm0.txt", [[1, 2]])]).1.captions.length = 1 ∧
    (load_features dmC3 [("abcdefghijklm0.txt", [[1, 2]])]).1.frame_paths.length = 0 := by
  decide

/-- C3 as amended: every operation preserves the alignment invariant
except a `load_features` run that fails with MissingFramePath, whose
left-behind state has exactly one more feature and caption than frame
paths (the two appends precede the failing frame-path lookup). -/
theorem C3_alignment_amended :
    corpusAligned DataManager.init ∧
    (∀ (dm : DataManager) (inp : List (String × List String)), corpusAligned dm →
      corpusAligned (load_frame_path_info dm inp).1) ∧
    (∀ (dm : DataManager) (inp : List (String × List String)), corpusAligned dm →
      corpusAligned (load_captions dm inp)) ∧
    (∀ (dm : DataManager) (inp : List (String × List ℤ)), corpusAligned dm →
      corpusAligned (load_key_frame_information dm inp).1) ∧
    (∀ dm : DataManager, corpusAligned dm → corpusAligned (normalize_features dm)) ∧
    (∀ (dm dm' : DataManager) (files : List (String × List (List ℚ))) (e : Option PyError),
      corpusAligned dm → load_features dm files = (dm', e) →
      ((e ≠ some .missingFramePath → corpusAligned dm') ∧
        (e = some .missingFramePath →
          dm'.features.length = dm'.captions.length ∧
          dm'.features.length = dm'.frame_paths.length + 1))) := by
  refine ⟨⟨rfl, rfl⟩, ?_, ?_, ?_, ?_, ?_⟩
  · intro dm inp ha
    obtain ⟨h1, h2, h3⟩ := load_frame_path_info_corpus inp dm
    exact ⟨by rw [h1, h2]; exact ha.1, by rw [h2, h3]; exact ha.2⟩
  · intro dm inp ha
    obtain ⟨h1, h2, h3⟩ := load_captions_corpus inp dm
    exact ⟨by rw [h1, h2]; exact ha.1, by rw [h2, h3]; exact ha.2⟩
  · intro dm inp ha
    obtain ⟨h1, h2, h3⟩ := load_key_frame_information_corpus inp dm
    exact ⟨by rw [h1, h2]; exact ha.1, by rw [h2, h3]; exact ha.2⟩
  · intro dm ha
    obtain ⟨h1, h2, h3⟩ := normalize_features_lengths dm
    exact ⟨by rw [h1, h2]; exact ha.1, by rw [h2, h3]; exact ha.2⟩
  · intro dm dm' files e ha h
    exact load_features_align files dm dm' e ha h

/-- Witness for the amended C3, instantiating every conjunct at a
concrete state; the last conjunct at the MissingFramePath failure. -/
theorem C3_alignment_amended_witness :
    corpusAligned (load_frame_path_info DataManager.init []).1 ∧
    corpusAligned (load_captions DataManager.init [("v", ["s"])]) ∧
    corpusAligned (load_key_frame_information DataManager.init []).1 ∧
    corpusAligned (normalize_features DataManager.init) ∧
    (dmC3out.features.length = dmC3out.captions.length ∧
      dmC3out.features.length = dmC3out.frame_paths.length + 1) :=
  ⟨C3_alignment_amended.2.1 DataManager.init [] (by decide),
   C3_alignment_amended.2.2.1 DataManager.init [("v", ["s"])] (by decide),
   C3_alignment_amended.2.2.2.1 DataManager.init [] (by decide),
   C3_alignment_amended.2.2.2.2.1 DataManager.init (by decide),
   (C3_alignment_amended.2.2.2.2.2 dmC3 dmC3out [("abcdefghijklm0.txt", [[1, 2]])]
      (some .missingFramePath) (by decide) (by decide)).2 rfl⟩

/-- Counterexample to C4 as stated: the cosine working set is
initialized to sentinel score `-1.0`, not `-∞`; a corpus record whose
similarity is exactly `-1` (here `[-1, 0]` against query `[1, 0]`)
does not strictly exceed the sentinel and is never inserted, so the
scan ends with the sentinel pair `(-1, -1)` instead of the record's
index `0`, which the claim requires. -/
theorem C4_sentinel_cex :
    scanCosine (l2normalize [1, 0]) dmC4.features 0
        (List.replicate 1 (-1)) (List.replicate 1 (-1))
      = .ok ([-1], [-1]) ∧ ((0 : ℤ) ∉ ([-1] : List ℤ)) := by
  constructor
  · norm_num [scanCosine, dmC4, npDot, npArgmin, argminAux, l2normalize, l2norm, sumSq,
      ratSqrt_one, List.replicate, List.getD_cons_zero]
  · decide

/-- C4 as amended: the working set starts at sentinel score `-1.0`
(not `-∞`) with index `-1`; a record replaces the current minimum only
when its similarity strictly exceeds it, and since all retained scores
stay `≥ -1`, a record whose similarity is `≤ -1` — including exactly
`-1` — is never inserted: its index does not appear in the scan's
index array. -/
theorem C4_sentinel_amended (dm : DataManager) (qf : List ℚ) (k : Nat) (j : Nat) (s : ℚ)
    (hj : j < dm.features.length)
    (hdot : npDot (dm.features.get ⟨j, hj⟩) (l2normalize qf) = .ok s)
    (hle : s ≤ -1)
    (sims : List ℚ) (idxs : List ℤ)
    (hok : scanCosine (l2normalize qf) dm.features 0
      (List.replicate k (-1)) (List.replicate k (-1)) = .ok (sims, idxs)) :
    ((j : ℤ) ∉ idxs) ∧ ∀ x ∈ sims, -1 ≤ x := by
  apply scanCosine_sentinel (l2normalize qf) j dm.features 0
    (List.replicate k (-1)) (List.replicate k (-1)) sims idxs ?_ ?_ ?_ hok
  · intro x hx
    have := List.eq_of_mem_replicate hx
    subst this
    norm_num
  · intro hmem
    have := List.eq_of_mem_replicate hmem
    omega
  · intro t ht hidx s2 hd
    have htj : t = j := by omega
    subst htj
    have : dm.features.get ⟨t, ht⟩ = dm.features.get ⟨t, hj⟩ := rfl
    rw [this, hdot] at hd
    cases hd
    exact hle

/-- Witness for the amended C4: record 0 has similarity exactly `-1`
and its index never enters the working set. -/
theorem C4_sentinel_amended_witness :
    ((0 : ℤ) ∉ ([1] : List ℤ)) ∧ ∀ x ∈ ([0] : List ℚ), -1 ≤ x :=
  C4_sentinel_amended dmC4w [1, 0] 1 0 (-1) (by decide)
    (by norm_num [dmC4w, npDot, l2normalize, l2norm, sumSq, ratSqrt_one])
    (by norm_num) [0] [1]
    (by norm_num [scanCosine, dmC4w, npDot, npArgmin, argminAux, l2normalize, l2norm, sumSq,
      ratSqrt_one, List.replicate, List.getD_cons_zero])

/-- Counterexample to C5 as stated: Euclidean query on a one-record
corpus with `k = 2` returns one real entry and one sentinel entry
(distance `∞`, index `-1`), but the sentinel slot's caption and frame
path are the real record's caption and path — Python's negative
indexing resolves index `-1` to the last corpus element — not an
invalid marker. -/
theorem C5_sentinel_slots_cex :
    query_knn_caption_brutal_force_euclidean_distance dmC5 [1, 0] 2
      = .ok (["a", "a"], ["p", "p"], [((0 : ℚ) : WithTop ℚ), ⊤]) ∧
    ((["a", "a"] : List String).getD 1 "") ∈ dmC5.captions := by
  constructor
  · norm_num [query_knn_caption_brutal_force_euclidean_distance, dmC5, scanEuclidean, npSub,
      npArgmax, argmaxAux, npArgsort, argLe, mapExcept, pyIndex, l2norm, sumSq,
      ratSqrt_zero, List.insertionSort, List.orderedInsert, List.getD_cons_zero,
      List.getD_cons_succ, List.replicate, WithTop.coe_lt_top]
  · decide

/-- C5 as amended: when `k` exceeds the corpus size `n` (nonempty
corpus, aligned caption and frame-path lists), the Euclidean result's
distance array holds exactly `k - n` sentinel `∞` entries (so exactly
`n` real ones), every sentinel slot carries index `-1`, and the output
stage resolves that index by Python negative indexing to the LAST
corpus record's caption and frame path — not to an invalid marker.
The cosine query behaves analogously with sentinel score `-1.0`,
except that records with similarity `≤ -1` are additionally never
inserted: its score array holds exactly `k` minus the number of
records with similarity strictly above `-1` sentinel `-1` entries
(possibly fewer than `min(k, n)` real entries), and its sentinel slots
resolve to the last record's caption and frame path the same way. -/
theorem C5_sentinel_slots_amended :
    (∀ (dm : DataManager) (qf : List ℚ) (k : Nat) (hcap : dm.captions ≠ [])
      (hfp : dm.frame_paths ≠ []) (caps fps : List String) (dists : List (WithTop ℚ)),
      dm.features.length < k →
      query_knn_caption_brutal_force_euclidean_distance dm qf k = .ok (caps, fps, dists) →
      dists.countP (fun x => decide (x = ⊤)) = k - dm.features.length ∧
      (∀ (t : Nat) (ht : t < dists.length) (ht2 : t < caps.length) (ht3 : t < fps.length),
        dists.get ⟨t, ht⟩ = ⊤ →
        caps.get ⟨t, ht2⟩ = dm.captions.getLast hcap ∧
        fps.get ⟨t, ht3⟩ = dm.frame_paths.getLast hfp)) ∧
    (∀ (dm : DataManager) (qf : List ℚ) (k : Nat) (hcap : dm.captions ≠ [])
      (hfp : dm.frame_paths ≠ []) (caps fps : List String) (sims : List ℚ),
      dm.features.length < k →
      query_knn_caption_brutal_force_cosine_similarity dm qf k = .ok (caps, fps, sims) →
      sims.countP (fun x => decide (x = -1)) +
          dm.features.countP (simGtNegOne (l2normalize qf)) = k ∧
      (∀ (t : Nat) (ht : t < sims.length) (ht2 : t < caps.length) (ht3 : t < fps.length),
        sims.get ⟨t, ht⟩ = -1 →
        caps.get ⟨t, ht2⟩ = dm.captions.getLast hcap ∧
        fps.get ⟨t, ht3⟩ = dm.frame_paths.getLast hfp)) := by
  constructor
  · intro dm qf k hcap hfp caps fps dists hk hok
    unfold query_knn_caption_brutal_force_euclidean_distance at hok
    split at hok
    · cases hok
    · next distsS idxs hscan =>
      split at hok
      · cases hok
      · next capsV hcaps =>
        split at hok
        · cases hok
        · next fpsV hfps =>
          cases hok
          have hlen := scanEuclidean_lengths qf dm.features 0
            (List.replicate k ⊤) (List.replicate k (-1)) distsS idxs hscan
          have hdlen : distsS.length = k := by simpa using hlen.1
          have hilen : idxs.length = k := by simpa using hlen.2
          have hrepl : (List.replicate k (⊤ : WithTop ℚ)).countP (fun x => decide (x = ⊤)) = k :=
            countP_replicate_true _ k ⊤ (by simp)
          have htop := scanEuclidean_top_inv qf dm.features 0
            (List.replicate k ⊤) (List.replicate k (-1)) distsS idxs
            (by simp)
            (by rw [hrepl]; exact le_of_lt hk)
            (by
              intro t ht ht2 _
              simp [List.get_eq_getElem, List.getElem_replicate])
            hscan
          have hcount : distsS.countP (fun x => decide (x = ⊤)) = k - dm.features.length := by
            have := htop.1
            rw [hrepl] at this
            omega
          constructor
          · have hperm := npArgsort_map_perm ⊤ distsS
            rw [hperm.countP_eq, hcount]
          · intro t ht ht2 ht3 httop
            have htlen : t < (npArgsort ⊤ distsS).length := by
              rw [npArgsort_length]
              rw [List.length_map, npArgsort_length] at ht
              exact ht
            have hjlt : (npArgsort ⊤ distsS).get ⟨t, htlen⟩ < distsS.length :=
              npArgsort_mem_lt ⊤ distsS _ (List.get_mem _ _ _)
            have hjlt2 : (npArgsort ⊤ distsS).get ⟨t, htlen⟩ < idxs.length := by
              rw [hilen, ← hdlen]
              exact hjlt
            have hgd : ((npArgsort ⊤ distsS).map (fun j => distsS.getD j ⊤)).get ⟨t, ht⟩
                = distsS.getD ((npArgsort ⊤ distsS).get ⟨t, htlen⟩) ⊤ :=
              get_map_eq _ _ t ht htlen
            have hdS : distsS.get ⟨(npArgsort ⊤ distsS).get ⟨t, htlen⟩, hjlt⟩ = ⊤ := by
              rw [← getD_eq_get _ _ (⊤ : WithTop ℚ) hjlt, ← hgd]
              exact httop
            have hidxval : idxs.get ⟨(npArgsort ⊤ distsS).get ⟨t, htlen⟩, hjlt2⟩ = -1 :=
              htop.2 _ hjlt hjlt2 hdS
            have htc : t < ((npArgsort ⊤ distsS).map (fun j => idxs.getD j (-1))).length := by
              rw [List.length_map]
              exact htlen
            have hival : ((npArgsort ⊤ distsS).map (fun j => idxs.getD j (-1))).get ⟨t, htc⟩
                = (-1 : ℤ) := by
              rw [get_map_eq _ _ t htc htlen, getD_eq_get _ _ (-1 : ℤ) hjlt2]
              exact hidxval
            constructor
            · have hmapped := mapExcept_get (pyIndex dm.captions)
                ((npArgsort ⊤ distsS).map (fun j => idxs.getD j (-1))) caps hcaps t htc ht2
              rw [hival, pyIndex_neg_one dm.captions hcap] at hmapped
              exact (Except.ok.injEq _ _).mp hmapped.symm
            · have hmapped := mapExcept_get (pyIndex dm.frame_paths)
                ((npArgsort ⊤ distsS).map (fun j => idxs.getD j (-1))) fps hfps t htc ht3
              rw [hival, pyIndex_neg_one dm.frame_paths hfp] at hmapped
              exact (Except.ok.injEq _ _).mp hmapped.symm
  · intro dm qf k hcap hfp caps fps sims hk hok
    unfold query_knn_caption_brutal_force_cosine_similarity at hok
    split at hok
    · cases hok
    · next simsS idxs hscan =>
      split at hok
      · cases hok
      · next capsV hcaps =>
        split at hok
        · cases hok
        · next fpsV hfps =>
          cases hok
          have hlen := scanCosine_lengths (l2normalize qf) dm.features 0
            (List.replicate k (-1)) (List.replicate k (-1)) simsS idxs hscan
          have hslen : simsS.length = k := by simpa using hlen.1
          have hilen : idxs.length = k := by simpa using hlen.2
          have hrepl : (List.replicate k (-1 : ℚ)).countP (fun x => decide (x = -1)) = k :=
            countP_replicate_true _ k (-1) (by simp)
          have hinv := scanCosine_sentinel_count (l2normalize qf) dm.features 0
            (List.replicate k (-1)) (List.replicate k (-1)) simsS idxs
            (by simp)
            (by
              rw [hrepl]
              calc dm.features.countP (simGtNegOne (l2normalize qf))
                  ≤ dm.features.length := List.countP_le_length _
                _ ≤ k := le_of_lt hk)
            (by
              intro x hx
              have := List.eq_of_mem_replicate hx
              subst this
              norm_num)
            (by
              intro t ht ht2 _
              simp [List.get_eq_getElem, List.getElem_replicate])
            hscan
          have hcount : simsS.countP (fun x => decide (x = -1)) +
              dm.features.countP (simGtNegOne (l2normalize qf)) = k := by
            have := hinv.1
            rw [hrepl] at this
            exact this
          constructor
          · have hrev : ((npArgsort (0 : ℚ) simsS).reverse).map (fun j => simsS.getD j 0)
                = ((npArgsort (0 : ℚ) simsS).map (fun j => simsS.getD j 0)).reverse := by
              rw [List.map_reverse]
            have hperm : List.Perm
                (((npArgsort (0 : ℚ) simsS).reverse).map (fun j => simsS.getD j 0)) simsS := by
              rw [hrev]
              exact (List.reverse_perm _).trans (npArgsort_map_perm 0 simsS)
            rw [hperm.countP_eq, hcount]
          · intro t ht ht2 ht3 hneg
            have htlen : t < ((npArgsort (0 : ℚ) simsS).reverse).length := by
              rw [List.length_reverse, npArgsort_length]
              rw [List.length_map, List.length_reverse, npArgsort_length] at ht
              exact ht
            have hjmem : ((npArgsort (0 : ℚ) simsS).reverse).get ⟨t, htlen⟩
                ∈ npArgsort (0 : ℚ) simsS :=
              List.mem_reverse.mp (List.get_mem _ _ _)
            have hjlt : ((npArgsort (0 : ℚ) simsS).reverse).get ⟨t, htlen⟩ < simsS.length :=
              npArgsort_mem_lt 0 simsS _ hjmem
            have hjlt2 : ((npArgsort (0 : ℚ) simsS).reverse).get ⟨t, htlen⟩ < idxs.length := by
              rw [hilen, ← hslen]
              exact hjlt
            have hgd : (((npArgsort (0 : ℚ) simsS).reverse).map (fun j => simsS.getD j 0)).get
                ⟨t, ht⟩ = simsS.getD (((npArgsort (0 : ℚ) simsS).reverse).get ⟨t, htlen⟩) 0 :=
              get_map_eq _ _ t ht htlen
            have hsS : simsS.get ⟨((npArgsort (0 : ℚ) simsS).reverse).get ⟨t, htlen⟩, hjlt⟩
                = -1 := by
              rw [← getD_eq_get _ _ (0 : ℚ) hjlt, ← hgd]
              exact hneg
            have hidxval : idxs.get
                ⟨((npArgsort (0 : ℚ) simsS).reverse).get ⟨t, htlen⟩, hjlt2⟩ = -1 :=
              hinv.2 _ hjlt hjlt2 hsS
            have htc : t < (((npArgsort (0 : ℚ) simsS).reverse).map
                (fun j => idxs.getD j (-1))).length := by
              rw [List.length_map]
              exact htlen
            have hival : (((npArgsort (0 : ℚ) simsS).reverse).map
                (fun j => idxs.getD j (-1))).get ⟨t, htc⟩ = (-1 : ℤ) := by
              rw [get_map_eq _ _ t htc htlen, getD_eq_get _ _ (-1 : ℤ) hjlt2]
              exact hidxval
            constructor
            · have hmapped := mapExcept_get (pyIndex dm.captions)
                (((npArgsort (0 : ℚ) simsS).reverse).map (fun j => idxs.getD j (-1)))
                caps hcaps t htc ht2
              rw [hival, pyIndex_neg_one dm.captions hcap] at hmapped
              exact (Except.ok.injEq _ _).mp hmapped.symm
            · have hmapped := mapExcept_get (pyIndex dm.frame_paths)
                (((npArgsort (0 : ℚ) simsS).reverse).map (fun j => idxs.getD j (-1)))
                fps hfps t htc ht3
              rw [hival, pyIndex_neg_one dm.frame_paths hfp] at hmapped
              exact (Except.ok.injEq _ _).mp hmapped.symm

/-- Witness for the amended C5: one-record corpus, `k = 2`; the
Euclidean result carries one sentinel `∞` slot and the cosine result
one sentinel `-1` slot, and in both the sentinel slot's caption and
frame path resolve to the last (only) record's. -/
theorem C5_sentinel_slots_amended_witness :
    (([((0 : ℚ) : WithTop ℚ), ⊤] : List (WithTop ℚ)).countP (fun x => decide (x = ⊤))
        = 2 - dmC5.features.length ∧
      (∀ (t : Nat) (ht : t < ([((0 : ℚ) : WithTop ℚ), ⊤] : List (WithTop ℚ)).length)
        (ht2 : t < (["a", "a"] : List String).length)
        (ht3 : t < (["p", "p"] : List String).length),
        ([((0 : ℚ) : WithTop ℚ), ⊤] : List (WithTop ℚ)).get ⟨t, ht⟩ = ⊤ →
        (["a", "a"] : List String).get ⟨t, ht2⟩ = dmC5.captions.getLast (by decide) ∧
        (["p", "p"] : List String).get ⟨t, ht3⟩ = dmC5.frame_paths.getLast (by decide))) ∧
    (([1, -1] : List ℚ).countP (fun x => decide (x = -1)) +
        dmC5.features.countP (simGtNegOne (l2normalize [1, 0])) = 2 ∧
      (∀ (t : Nat) (ht : t < ([1, -1] : List ℚ).length)
        (ht2 : t < (["a", "a"] : List String).length)
        (ht3 : t < (["p", "p"] : List String).length),
        ([1, -1] : List ℚ).get ⟨t, ht⟩ = -1 →
        (["a", "a"] : List String).get ⟨t, ht2⟩ = dmC5.captions.getLast (by decide) ∧
        (["p", "p"] : List String).get ⟨t, ht3⟩ = dmC5.frame_paths.getLast (by decide))) :=
  ⟨C5_sentinel_slots_amended.1 dmC5 [1, 0] 2 (by decide) (by decide) ["a", "a"] ["p", "p"]
    [((0 : ℚ) : WithTop ℚ), ⊤] (by decide) (by
      norm_num [query_knn_caption_brutal_force_euclidean_distance, dmC5, scanEuclidean, npSub,
        npArgmax, argmaxAux, npArgsort, argLe, mapExcept, pyIndex, l2norm, sumSq,
        ratSqrt_zero, List.insertionSort, List.orderedInsert, List.getD_cons_zero,
        List.getD_cons_succ, List.replicate, WithTop.coe_lt_top]),
   C5_sentinel_slots_amended.2 dmC5 [1, 0] 2 (by decide) (by decide) ["a", "a"] ["p", "p"]
    [1, -1] (by decide) (by
      norm_num [query_knn_caption_brutal_force_cosine_similarity, dmC5, scanCosine, npDot,
        npArgmin, argminAux, npArgsort, argLe, mapExcept, pyIndex, l2normalize, l2norm, sumSq,
        ratSqrt_one, List.insertionSort, List.orderedInsert, List.getD_cons_zero,
        List.getD_cons_succ, List.replicate])⟩

/-- Counterexample to C6 as stated: with an empty corpus AND `k = 0`
(both InvalidQuery conditions violated at once) neither query is
rejected at all — both run to completion and return empty results;
no validation happens before (or after) the scan. -/
theorem C6_invalid_query_cex :
    query_knn_caption_brutal_force_cosine_similarity DataManager.init [1] 0
        = .ok ([], [], []) ∧
      query_knn_caption_brutal_force_euclidean_distance DataManager.init [1] 0
        = .ok ([], [], []) := by
  constructor
  · simp [query_knn_caption_brutal_force_cosine_similarity, DataManager.init, scanCosine,
      npArgsort, mapExcept, List.insertionSort, List.replicate]
  · simp [query_knn_caption_brutal_force_euclidean_distance, DataManager.init, scanEuclidean,
      npArgsort, mapExcept, List.insertionSort, List.replicate]

/-- C6 as amended: the code performs no input validation and raises no
error before the scan.  On an empty corpus: with `k = 0` both queries
succeed with empty results; with `k ≥ 1` both complete the (empty)
scan and fail only at output assembly, with an `IndexError` from
indexing the empty caption list.  A query vector of the wrong
dimensionality is not rejected up front either: the cosine query fails
with the `ValueError` of the first `np.dot` inside the scan. -/
theorem C6_invalid_query_amended :
    (∀ (dm : DataManager) (qf : List ℚ),
      dm.features = [] → dm.captions = [] → dm.frame_paths = [] →
      (query_knn_caption_brutal_force_cosine_similarity dm qf 0 = .ok ([], [], []) ∧
        query_knn_caption_brutal_force_euclidean_distance dm qf 0 = .ok ([], [], []) ∧
        ∀ k, 1 ≤ k →
          (query_knn_caption_brutal_force_cosine_similarity dm qf k = .error .indexError ∧
            query_knn_caption_brutal_force_euclidean_distance dm qf k
              = .error .indexError))) ∧
    (∀ (dm : DataManager) (qf f : List ℚ) (fs : List (List ℚ)) (k : Nat),
      dm.features = f :: fs → (l2normalize qf).length ≠ f.length →
      query_knn_caption_brutal_force_cosine_similarity dm qf k = .error .valueError) := by
  constructor
  · intro dm qf hf hc hp
    refine ⟨?_, ?_, ?_⟩
    · unfold query_knn_caption_brutal_force_cosine_similarity
      rw [hf, hc, hp]
      simp [scanCosine, npArgsort, mapExcept, List.insertionSort, List.replicate]
    · unfold query_knn_caption_brutal_force_euclidean_distance
      rw [hf, hc, hp]
      simp [scanEuclidean, npArgsort, mapExcept, List.insertionSort, List.replicate]
    · intro k hk
      constructor
      · unfold query_knn_caption_brutal_force_cosine_similarity
        rw [hf, hc]
        have hne : (npArgsort (0 : ℚ) (List.replicate k (-1))).reverse ≠ [] := by
          intro habs
          have hlen2 : ((npArgsort (0 : ℚ) (List.replicate k (-1))).reverse).length = k := by
            rw [List.length_reverse, npArgsort_length, List.length_replicate]
          rw [habs] at hlen2
          simp at hlen2
          omega
        obtain ⟨j, tl, hcons⟩ := List.exists_cons_of_ne_nil hne
        simp only [scanCosine]
        rw [hcons, List.map_cons, mapExcept_cons_error _ _ _ _ (pyIndex_nil _)]
      · unfold query_knn_caption_brutal_force_euclidean_distance
        rw [hf, hc]
        have hne : npArgsort (⊤ : WithTop ℚ) (List.replicate k ⊤) ≠ [] := by
          intro habs
          have hlen2 : (npArgsort (⊤ : WithTop ℚ) (List.replicate k ⊤)).length = k := by
            rw [npArgsort_length, List.length_replicate]
          rw [habs] at hlen2
          simp at hlen2
          omega
        obtain ⟨j, tl, hcons⟩ := List.exists_cons_of_ne_nil hne
        simp only [scanEuclidean]
        rw [hcons, List.map_cons, mapExcept_cons_error _ _ _ _ (pyIndex_nil _)]
  · intro dm qf f fs k hf hlen
    unfold query_knn_caption_brutal_force_cosine_similarity
    rw [hf]
    have hdot : npDot f (l2normalize qf) = .error .valueError := by
      unfold npDot
      rw [if_neg (fun hh => hlen hh.symm)]
    simp [scanCosine, hdot]

/-- Witness for the amended C6, instantiated on the initial (empty)
state and on a one-record corpus with a length-3 query. -/
theorem C6_invalid_query_amended_witness :
    (query_knn_caption_brutal_force_cosine_similarity DataManager.init [1] 1
        = .error .indexError ∧
      query_knn_caption_brutal_force_euclidean_distance DataManager.init [1] 1
        = .error .indexError) ∧
    query_knn_caption_brutal_force_cosine_similarity dmC6 [1, 0, 0] 1
      = .error .valueError :=
  ⟨(C6_invalid_query_amended.1 DataManager.init [1] rfl rfl rfl).2.2 1 (by norm_num),
   C6_invalid_query_amended.2 dmC6 [1, 0, 0] [1, 0] [] 1 rfl (by
     rw [l2normalize_length]
     decide)⟩